import Mathlib

/-!
Verification of the `backr` backward reader (package `goback` with its
circular-buffer package `backbuf`).

Bytes are modelled as `Nat`, Go byte slices as `List Nat`.  Go `int`
index arithmetic is modelled over `Nat`; the well-formedness invariant
`Buffer.wf` (positions within `[0, capacity]`), which every reachable
buffer satisfies, makes the `Nat` subtractions coincide with Go's `int`
subtractions in every operation.
-/

namespace Backr

/-- Go slice expression `l[a:b]`. -/
def sub (l : List Nat) (a b : Nat) : List Nat := (l.take b).drop a

/-- Models Go `copy(dst[a:a+len(src)], src)` for the in-bounds,
equal-length copies this code base performs: the result keeps `dst`
outside `[a, a + len src)` and holds `src` inside that range. -/
def listCopy (dst : List Nat) (a : Nat) (src : List Nat) : List Nat :=
  dst.take a ++ src.take (dst.length - a) ++ dst.drop (a + src.length)

/-- Every error value the two packages can produce.  `goback` exposes
`ErrInvalidArguments`, `ErrNoContent` and `ErrInternal`; `backbuf`
returns distinct `fmt.Errorf` values, modelled by the `buf*`
constructors.  `src` stands for an arbitrary error returned by an
external `RndReader`.  `fuel` is the sentinel of the loop-measure
encoding of the Go `for` loop; it is never returned for sufficient
fuel. -/
inductive Err where
  | invalidArguments : Err
  | noContent : Err
  | internal : Err
  | bufSizeTooSmall : Err
  | bufInputEmpty : Err
  | bufFull : Err
  | bufTargetEmpty : Err
  | bufNonPositive : Err
  | bufNotEnough : Err
  | src : Nat → Err
  | fuel : Err
  deriving DecidableEq, Repr

/-- `backbuf.Buffer`. -/
structure Buffer where
  buffer : List Nat
  wpos : Nat
  rpos : Nat
  full : Bool
  deriving DecidableEq, Repr

def minSize : Nat := 1

/-- `Buffer.Size`. -/
def Buffer.size (cb : Buffer) : Nat := cb.buffer.length

/-- `Buffer.Reset`. -/
def Buffer.reset (cb : Buffer) : Buffer :=
  { cb with wpos := cb.buffer.length, rpos := cb.buffer.length, full := false }

/-- `backbuf.New`. -/
def Buffer.new (size : Nat) : Except Err Buffer :=
  if size < minSize then .error .bufSizeTooSmall
  else .ok (Buffer.reset { buffer := List.replicate size 0, wpos := 0, rpos := 0, full := false })

/-- `Buffer.WriteAvailability`. -/
def Buffer.writeAvailability (cb : Buffer) : Nat :=
  if cb.full then 0
  else if cb.wpos ≤ cb.rpos then cb.buffer.length - cb.rpos + cb.wpos
  else cb.wpos - cb.rpos

/-- `Buffer.ReadAvailability`. -/
def Buffer.readAvailability (cb : Buffer) : Nat :=
  cb.buffer.length - cb.writeAvailability

/-- `Buffer.Write`. -/
def Buffer.write (cb : Buffer) (buf : List Nat) : Except Err (Nat × Buffer) :=
  if buf.length = 0 then .error .bufInputEmpty
  else
    let toWrite := min cb.writeAvailability buf.length
    if toWrite = 0 then .error .bufFull
    else if cb.wpos ≤ cb.rpos then
      if toWrite < cb.wpos then
        let wpos' := cb.wpos - toWrite
        let st := listCopy cb.buffer wpos' (sub buf 0 toWrite)
        .ok (toWrite, { cb with buffer := st, wpos := wpos', full := wpos' == cb.rpos })
      else
        let wpos' := cb.buffer.length - toWrite + cb.wpos
        let st1 := listCopy cb.buffer 0 (sub buf 0 cb.wpos)
        let st2 := listCopy st1 wpos' (sub buf cb.wpos toWrite)
        .ok (toWrite, { cb with buffer := st2, wpos := wpos', full := wpos' == cb.rpos })
    else
      let wpos' := cb.wpos - toWrite
      let st := listCopy cb.buffer wpos' (sub buf 0 toWrite)
      .ok (toWrite, { cb with buffer := st, wpos := wpos', full := wpos' == cb.rpos })

/-- `Buffer.Read`.  The Go method fills the caller's slice `buf`; the
model takes the current contents of that slice and returns the count,
the slice's contents after the call, and the buffer state after the
call. -/
def Buffer.read (cb : Buffer) (buf : List Nat) : Except Err (Nat × List Nat × Buffer) :=
  if buf.length = 0 then .error .bufTargetEmpty
  else
    let toRead := min buf.length cb.readAvailability
    let lBytes := min cb.rpos toRead
    let buf1 := listCopy buf (toRead - lBytes) (sub cb.buffer (cb.rpos - lBytes) cb.rpos)
    if lBytes < toRead then
      let rBytes := toRead - lBytes
      let buf2 := listCopy buf1 0 (sub cb.buffer (cb.buffer.length - rBytes) cb.buffer.length)
      .ok (toRead, buf2, { cb with rpos := cb.buffer.length - rBytes, full := false })
    else
      .ok (toRead, buf1, { cb with rpos := cb.rpos - lBytes, full := false })

/-- `Buffer.Omit`. -/
def Buffer.omit (cb : Buffer) (n : Nat) : Except Err Buffer :=
  if n < 1 then .error .bufNonPositive
  else if cb.readAvailability < n then .error .bufNotEnough
  else if cb.rpos ≤ n then .ok { cb with rpos := cb.buffer.length - n + cb.rpos, full := false }
  else .ok { cb with rpos := cb.rpos - n, full := false }

/-- Well-formedness of a buffer state: positive capacity, both positions
within `[0, capacity]`, and the `full` flag only set when the positions
coincide.  `backbuf.New` establishes it and every operation preserves
it. -/
def Buffer.wf (cb : Buffer) : Prop :=
  1 ≤ cb.buffer.length ∧ cb.wpos ≤ cb.buffer.length ∧ cb.rpos ≤ cb.buffer.length ∧
    (cb.full = true → cb.wpos = cb.rpos)

instance (cb : Buffer) : Decidable cb.wf := by
  unfold Buffer.wf; infer_instance

/-- The index set of the unread (staged, not yet read or omitted) cells
of the storage: the circular region from `wpos` (inclusive) up to `rpos`
(exclusive), the whole storage when `full`. -/
def Buffer.unreadIdx (cb : Buffer) (i : Nat) : Prop :=
  (cb.full = true ∧ i < cb.buffer.length) ∨
  (cb.full = false ∧ cb.wpos ≤ cb.rpos ∧ cb.wpos ≤ i ∧ i < cb.rpos) ∨
  (cb.full = false ∧ cb.rpos < cb.wpos ∧ (cb.wpos ≤ i ∧ i < cb.buffer.length ∨ i < cb.rpos))

instance (cb : Buffer) (i : Nat) : Decidable (cb.unreadIdx i) := by
  unfold Buffer.unreadIdx; infer_instance

/-- The result a `RndReader.ReadAt` call leaves behind: the byte count,
the contents of the request slice after the call, and the error. -/
structure SrcRes where
  nr : Nat
  data : List Nat
  err : Option Err

/-- A random-access source: given the requested length and the absolute
offset, produce the `ReadAt` result. -/
def Source : Type := Nat → Nat → SrcRes

/-- The in-memory source of the `goback` tests: `ReadAt` copies
`min(len(s) - off, len(b))` bytes of `s` starting at `off` into the
front of the zero-initialized request slice. -/
def inMemReadAt (s : List Nat) : Source := fun reqLen off =>
  let rs := min (s.length - off) reqLen
  { nr := rs, data := sub s off (off + rs) ++ List.replicate (reqLen - rs) 0, err := none }

def minBufSize : Nat := 1

/-- `goback.Reader`. -/
structure Reader where
  ir : Source
  off : Nat
  buf : Buffer

/-- `Reader.Offset`. -/
def Reader.offset (r : Reader) : Nat := r.off + r.buf.readAvailability

/-- What a `Reader.Read` call leaves behind: the returned count, the
caller's slice after the call, the reader's `off` and `buf` fields after
the call, and the returned error (`none` for Go's `nil`). -/
structure ReadRes where
  n : Nat
  b : List Nat
  off : Nat
  buf : Buffer
  err : Option Err

/-- Outcome of one iteration of the `Reader.Read` loop body: either the
call returns (`halt`), or the loop continues with updated `read`, slice
contents, offset and buffer. -/
inductive StepRes where
  | halt : ReadRes → StepRes
  | next : Nat → List Nat → Nat → Buffer → StepRes

/-- The drain step at the bottom of the `Reader.Read` loop body: reads
`min(toRead-read, ReadAvailability)` staged bytes into the sub-slice
`b[toRead-read-rs : toRead-read]`. -/
def Reader.drainBody (toRead read : Nat) (b : List Nat) (off : Nat) (cb : Buffer) : StepRes :=
  let rs := min (toRead - read) cb.readAvailability
  match cb.read (sub b (toRead - read - rs) (toRead - read)) with
  | .error e => .halt { n := 0, b := b, off := off, buf := cb, err := some e }
  | .ok (nn, seg, cb2) =>
    let b' := listCopy b (toRead - read - rs) seg
    if nn ≠ rs then .halt { n := 0, b := b', off := off, buf := cb2, err := some .internal }
    else .next (read + rs) b' off cb2

/-- One iteration of the `Reader.Read` loop body: refill from the source
when the buffer holds nothing, then drain into the caller's slice. -/
def Reader.loopBody (ir : Source) (toRead read : Nat) (b : List Nat) (off : Nat)
    (cb : Buffer) : StepRes :=
  if cb.readAvailability = 0 then
    let maxReadSize := if off < cb.size then off else cb.size
    let roff := off - maxReadSize
    let res := ir maxReadSize roff
    match res.err with
    | some e => .halt { n := 0, b := b, off := off, buf := cb, err := some e }
    | none =>
      match cb.write (sub res.data 0 res.nr) with
      | .error e => .halt { n := 0, b := b, off := off, buf := cb, err := some e }
      | .ok (nw, cb1) =>
        if res.nr ≠ nw then .halt { n := 0, b := b, off := off, buf := cb1, err := some .internal }
        else Reader.drainBody toRead read b roff cb1
  else Reader.drainBody toRead read b off cb

/-- The `for read != toRead` loop of `Reader.Read`, with an explicit
loop measure (`fuel`).  Each productive iteration drains at least one
byte, so any `fuel > toRead` makes the `Err.fuel` sentinel
unreachable. -/
def Reader.readLoop (ir : Source) : Nat → Nat → Nat → List Nat → Nat → Buffer → ReadRes
  | 0, _, read, b, off, cb => { n := read, b := b, off := off, buf := cb, err := some .fuel }
  | fuel + 1, toRead, read, b, off, cb =>
    if read = toRead then { n := read, b := b, off := off, buf := cb, err := none }
    else
      match Reader.loopBody ir toRead read b off cb with
      | .halt r => r
      | .next read' b' off' cb' => Reader.readLoop ir fuel toRead read' b' off' cb'

/-- `Reader.Read`. -/
def Reader.read (r : Reader) (b : List Nat) : ReadRes :=
  if b.length = 0 then { n := 0, b := b, off := r.off, buf := r.buf, err := some .invalidArguments }
  else
    let toRead := min b.length (Reader.offset r)
    let res := Reader.readLoop r.ir (b.length + 1) toRead 0 b r.off r.buf
    match res.err with
    | some _ => res
    | none => if res.n < b.length then { res with err := some .noContent } else res

/-- `Reader.ReadAt`. -/
def Reader.readAt (r : Reader) (b : List Nat) (off : Nat) : ReadRes :=
  let cb1 :=
    if off < r.off then r.buf.reset
    else if r.off + r.buf.readAvailability < off then r.buf.reset
    else
      match r.buf.omit (off - r.off) with
      | .ok cb => cb
      | .error _ => r.buf
  Reader.read { r with off := off, buf := cb1 } b

/-- `goback.NewReader`. -/
def Reader.new (ir : Source) (off : Nat) (bufSize : Nat) : Except Err Reader :=
  if bufSize < minBufSize then .error .invalidArguments
  else
    match Buffer.new bufSize with
    | .error e => .error e
    | .ok cb => .ok { ir := ir, off := off, buf := cb }

/-- The buffer state `backbuf.New c` produces. -/
def freshBuf (c : Nat) : Buffer :=
  { buffer := List.replicate c 0, wpos := c, rpos := c, full := false }

/-- A source whose in-range reads (every read of `req ≥ 1` bytes ending
at or below offset `k`) succeed and return exactly the requested
bytes. -/
def goodBelow (src : Source) (k : Nat) : Prop :=
  ∀ req o, 1 ≤ req → o + req ≤ k →
    (src req o).err = none ∧ (src req o).nr = req ∧ (src req o).data.length = req

/-- A source that always claims success but returns zero bytes. -/
def zeroSource : Source := fun reqLen _ =>
  { nr := 0, data := List.replicate reqLen 0, err := none }

/-- A source that serves offsets `2` and above and fails below them. -/
def failLowSource : Source := fun reqLen off =>
  if 2 ≤ off then { nr := reqLen, data := List.replicate reqLen 7, err := none }
  else { nr := reqLen, data := List.replicate reqLen 7, err := some (.src 0) }

/-! ## List helper lemmas -/

theorem sub_length {l : List Nat} {a b : Nat} (h : b ≤ l.length) :
    (sub l a b).length = b - a := by
  simp [sub, Nat.min_eq_left h]

theorem sub_zero (l : List Nat) (n : Nat) : sub l 0 n = l.take n := by
  simp [sub]

theorem sub_zero_length (l : List Nat) : sub l 0 l.length = l := by
  simp [sub]

theorem sub_same (l : List Nat) (a : Nat) : sub l a a = [] := by
  refine List.drop_eq_nil_iff.mpr ?h
  simp

theorem listCopy_length {dst src : List Nat} {a : Nat} (h : a + src.length ≤ dst.length) :
    (listCopy dst a src).length = dst.length := by
  simp [listCopy]
  omega

theorem listCopy_nil (dst : List Nat) (a : Nat) : listCopy dst a [] = dst := by
  simp [listCopy]

theorem listCopy_eq_append {dst src : List Nat} {a : Nat} (h : a + src.length = dst.length) :
    listCopy dst a src = dst.take a ++ src := by
  unfold listCopy
  rw [show dst.length - a = src.length from by omega, List.take_length,
    show a + src.length = dst.length from h, List.drop_length, List.append_nil]

theorem listCopy_zero_full {dst src : List Nat} (h : src.length = dst.length) :
    listCopy dst 0 src = src := by
  have h2 : (0 : Nat) + src.length = dst.length := by omega
  rw [listCopy_eq_append h2, List.take_zero, List.nil_append]

theorem listCopy_drop_self {dst src : List Nat} {a : Nat} (h : a + src.length ≤ dst.length) :
    (listCopy dst a src).drop a = src ++ dst.drop (a + src.length) := by
  unfold listCopy
  rw [List.append_assoc, List.drop_left' (by rw [List.length_take]; omega),
    List.take_of_length_le (by omega)]

theorem sub_append_drop {l : List Nat} {a b : Nat} (hab : a ≤ b) (hb : b ≤ l.length) :
    sub l a b ++ l.drop b = l.drop a := by
  unfold sub
  conv_rhs => rw [← List.take_append_drop b l]
  rw [List.drop_append_of_le_length (by rw [List.length_take]; omega)]

theorem listCopy_getElem?_low {dst src : List Nat} {a i : Nat} (ha : a ≤ dst.length)
    (hi : i < a) : (listCopy dst a src)[i]? = dst[i]? := by
  unfold listCopy
  rw [List.append_assoc, List.getElem?_append_left (by rw [List.length_take]; omega),
    List.getElem?_take_of_lt hi]

theorem listCopy_getElem?_high {dst src : List Nat} {a i : Nat}
    (h : a + src.length ≤ dst.length) (hi : a + src.length ≤ i) :
    (listCopy dst a src)[i]? = dst[i]? := by
  unfold listCopy
  rw [List.take_of_length_le (show src.length ≤ dst.length - a by omega), List.append_assoc,
    List.getElem?_append_right (by rw [List.length_take]; omega),
    List.length_take_of_le (by omega),
    List.getElem?_append_right (by omega), List.getElem?_drop]
  congr 1
  omega

/-! ## Buffer arithmetic lemmas -/

theorem Buffer.wa_le (cb : Buffer) (hw : cb.wpos ≤ cb.buffer.length) :
    cb.writeAvailability ≤ cb.buffer.length := by
  unfold Buffer.writeAvailability
  split
  · omega
  · split <;> omega

theorem Buffer.full_false_of_empty (cb : Buffer) (h1 : 1 ≤ cb.buffer.length)
    (he : cb.readAvailability = 0) : cb.full = false := by
  cases hf : cb.full
  · rfl
  · exfalso
    have hwa : cb.writeAvailability = 0 := by simp [Buffer.writeAvailability, hf]
    unfold Buffer.readAvailability at he
    omega

theorem Buffer.wa_of_empty (cb : Buffer) (hw : cb.wpos ≤ cb.buffer.length)
    (he : cb.readAvailability = 0) : cb.writeAvailability = cb.buffer.length := by
  have := cb.wa_le hw
  unfold Buffer.readAvailability at he
  omega

theorem Buffer.wf_reset (cb : Buffer) (h1 : 1 ≤ cb.buffer.length) : cb.reset.wf := by
  refine ⟨?a, ?b, ?c, ?d⟩ <;> simp [Buffer.reset, h1]

theorem Buffer.reset_avail (cb : Buffer) : cb.reset.readAvailability = 0 := by
  simp [Buffer.reset, Buffer.readAvailability, Buffer.writeAvailability]

theorem Buffer.avail_formula (cb : Buffer) (h1 : cb.wpos ≤ cb.buffer.length)
    (h2 : cb.rpos ≤ cb.buffer.length) :
    cb.readAvailability =
      if cb.full then cb.buffer.length
      else if cb.wpos ≤ cb.rpos then cb.rpos - cb.wpos
      else cb.buffer.length - cb.wpos + cb.rpos := by
  unfold Buffer.readAvailability Buffer.writeAvailability
  split
  · omega
  · split
    · omega
    · omega

/-- Read availability of the state a write branch builds: its `full`
flag is the comparison `wpos' == rpos`. -/
theorem Buffer.avail_mk (st : List Nat) (w r L : Nat) (hL : st.length = L) (hw : w ≤ L)
    (hr : r ≤ L) :
    (Buffer.mk st w r (w == r)).readAvailability =
      if w = r then L else if w ≤ r then r - w else L - w + r := by
  unfold Buffer.readAvailability Buffer.writeAvailability
  by_cases hwr' : w = r
  · simp [hwr', hL]
  · have hb : (w == r) = false := by simp [hwr']
    simp only [hb, hL]
    simp only [Bool.false_eq_true, if_false]
    split
    · omega
    · omega

/-- Well-formedness of an explicitly built state. -/
theorem Buffer.wf_mk (st : List Nat) (w r L : Nat) (f : Bool) (hL : st.length = L)
    (h1 : 1 ≤ L) (hw : w ≤ L) (hr : r ≤ L) (hf : f = true → w = r) :
    (Buffer.mk st w r f).wf := by
  refine ⟨?a, ?b, ?c, ?d⟩
  · show 1 ≤ st.length
    omega
  · show w ≤ st.length
    omega
  · show r ≤ st.length
    omega
  · intro hbe
    exact hf hbe

/-- `Buffer.Write`, counting view: on a well-formed state with room, the
write accepts `min(write_availability, len(input))` bytes, keeps the
capacity and the read position, preserves well-formedness, and grows the
read availability by the accepted count. -/
theorem Buffer.write_spec (cb : Buffer) (v : List Nat) (hwf : cb.wf) (hv : 1 ≤ v.length)
    (hcap : 1 ≤ cb.writeAvailability) :
    ∃ cb1, cb.write v = .ok (min cb.writeAvailability v.length, cb1) ∧ cb1.wf ∧
      cb1.buffer.length = cb.buffer.length ∧ cb1.rpos = cb.rpos ∧
      cb1.readAvailability = cb.readAvailability + min cb.writeAvailability v.length := by
  obtain ⟨h1, hw, hr, hfull⟩ := hwf
  have hnf : cb.full = false := by
    cases hf : cb.full
    · rfl
    · exfalso
      have : cb.writeAvailability = 0 := by simp [Buffer.writeAvailability, hf]
      omega
  have hwale : cb.writeAvailability ≤ cb.buffer.length := cb.wa_le hw
  have ht1 : 1 ≤ min cb.writeAvailability v.length := le_min hcap hv
  have htw : min cb.writeAvailability v.length ≤ cb.writeAvailability := Nat.min_le_left _ _
  have htv : min cb.writeAvailability v.length ≤ v.length := Nat.min_le_right _ _
  have hsublen : (sub v 0 (min cb.writeAvailability v.length)).length
      = min cb.writeAvailability v.length := by
    rw [sub_zero, List.length_take, Nat.min_eq_left htv]
  have havf := Buffer.avail_formula cb hw hr
  rw [hnf] at havf
  simp only [Bool.false_eq_true, if_false] at havf
  by_cases hwr : cb.wpos ≤ cb.rpos
  · -- write with `wpos ≤ rpos`
    have hWA : cb.writeAvailability = cb.buffer.length - cb.rpos + cb.wpos := by
      simp [Buffer.writeAvailability, hnf, hwr]
    rw [if_pos hwr] at havf
    by_cases hlt : min cb.writeAvailability v.length < cb.wpos
    · -- contiguous placement below `wpos`
      have heq : cb.write v = .ok (min cb.writeAvailability v.length,
          { cb with
            buffer := listCopy cb.buffer (cb.wpos - min cb.writeAvailability v.length)
              (sub v 0 (min cb.writeAvailability v.length)),
            wpos := cb.wpos - min cb.writeAvailability v.length,
            full := cb.wpos - min cb.writeAvailability v.length == cb.rpos }) := by
        simp only [Buffer.write]
        rw [if_neg (by omega), if_neg (by omega), if_pos hwr, if_pos hlt]
      set t := min cb.writeAvailability v.length with htdef
      have hlen2 : (listCopy cb.buffer (cb.wpos - t) (sub v 0 t)).length = cb.buffer.length :=
        listCopy_length (by omega)
      refine ⟨_, heq, Buffer.wf_mk _ _ _ _ _ hlen2 h1 (by omega) hr
        (fun hbe => beq_iff_eq.mp hbe), hlen2, rfl, ?availA⟩
      case availA =>
        rw [Buffer.avail_mk _ _ _ _ hlen2 (by omega) hr, havf]
        rw [if_neg (show ¬(cb.wpos - t = cb.rpos) by omega),
          if_pos (show cb.wpos - t ≤ cb.rpos by omega)]
        omega
    · -- wrapped placement
      have heq : cb.write v = .ok (min cb.writeAvailability v.length,
          { cb with
            buffer := listCopy
              (listCopy cb.buffer 0 (sub v 0 cb.wpos))
              (cb.buffer.length - min cb.writeAvailability v.length + cb.wpos)
              (sub v cb.wpos (min cb.writeAvailability v.length)),
            wpos := cb.buffer.length - min cb.writeAvailability v.length + cb.wpos,
            full := cb.buffer.length - min cb.writeAvailability v.length + cb.wpos == cb.rpos }) := by
        simp only [Buffer.write]
        rw [if_neg (by omega), if_neg (by omega), if_pos hwr, if_neg hlt]
      set t := min cb.writeAvailability v.length with htdef
      have hwlev : cb.wpos ≤ v.length := by omega
      have hlen1 : (listCopy cb.buffer 0 (sub v 0 cb.wpos)).length = cb.buffer.length :=
        listCopy_length (by rw [sub_zero, List.length_take, Nat.min_eq_left hwlev]; omega)
      have hsub2 : (sub v cb.wpos t).length = t - cb.wpos := sub_length (by omega)
      have hlen2 : (listCopy
          (listCopy cb.buffer 0 (sub v 0 cb.wpos))
          (cb.buffer.length - t + cb.wpos)
          (sub v cb.wpos t)).length = cb.buffer.length := by
        rw [listCopy_length, hlen1]
        rw [hlen1, hsub2]
        omega
      refine ⟨_, heq, Buffer.wf_mk _ _ _ _ _ hlen2 h1 (by omega) hr
        (fun hbe => beq_iff_eq.mp hbe), hlen2, rfl, ?availB⟩
      case availB =>
        rw [Buffer.avail_mk _ _ _ _ hlen2 (by omega) hr, havf]
        by_cases hfe : cb.buffer.length - t + cb.wpos = cb.rpos
        · rw [if_pos hfe]
          omega
        · rw [if_neg hfe, if_neg (by omega)]
          omega
  · -- write with `wpos > rpos`
    have hWA : cb.writeAvailability = cb.wpos - cb.rpos := by
      simp [Buffer.writeAvailability, hnf, hwr]
    rw [if_neg hwr] at havf
    have heq : cb.write v = .ok (min cb.writeAvailability v.length,
        { cb with
          buffer := listCopy cb.buffer (cb.wpos - min cb.writeAvailability v.length)
            (sub v 0 (min cb.writeAvailability v.length)),
          wpos := cb.wpos - min cb.writeAvailability v.length,
          full := cb.wpos - min cb.writeAvailability v.length == cb.rpos }) := by
      simp only [Buffer.write]
      rw [if_neg (by omega), if_neg (by omega), if_neg hwr]
    set t := min cb.writeAvailability v.length with htdef
    have hlen2 : (listCopy cb.buffer (cb.wpos - t) (sub v 0 t)).length = cb.buffer.length :=
      listCopy_length (by omega)
    refine ⟨_, heq, Buffer.wf_mk _ _ _ _ _ hlen2 h1 (by omega) hr
      (fun hbe => beq_iff_eq.mp hbe), hlen2, rfl, ?availC⟩
    case availC =>
      rw [Buffer.avail_mk _ _ _ _ hlen2 (by omega) hr, havf]
      by_cases hfe : cb.wpos - t = cb.rpos
      · rw [if_pos hfe]
        omega
      · rw [if_neg hfe, if_neg (by omega)]
        omega

/-- Read availability of a state whose `full` flag is cleared. -/
theorem Buffer.avail_mk_false (st : List Nat) (w r : Nat) (hw : w ≤ st.length)
    (hr : r ≤ st.length) :
    (Buffer.mk st w r false).readAvailability =
      if w ≤ r then r - w else st.length - w + r := by
  unfold Buffer.readAvailability Buffer.writeAvailability
  simp only [Bool.false_eq_true, if_false]
  split
  · omega
  · omega

/-- `Buffer.Read`, counting view: on a well-formed state with a nonempty
target, the read returns `min(len(target), read_availability)` bytes,
leaves the storage and write position untouched, clears `full`,
preserves well-formedness, and shrinks the read availability by the
returned count. -/
theorem Buffer.read_spec (cb : Buffer) (dst : List Nat) (hwf : cb.wf) (hd : 1 ≤ dst.length) :
    ∃ seg cb2, cb.read dst = .ok (min dst.length cb.readAvailability, seg, cb2) ∧
      seg.length = dst.length ∧ cb2.wf ∧ cb2.buffer = cb.buffer ∧ cb2.wpos = cb.wpos ∧
      cb2.readAvailability = cb.readAvailability - min dst.length cb.readAvailability := by
  obtain ⟨h1, hw, hr, hfull⟩ := hwf
  have havf := Buffer.avail_formula cb hw hr
  have havL : cb.readAvailability ≤ cb.buffer.length := by
    unfold Buffer.readAvailability
    omega
  set toRead := min dst.length cb.readAvailability with htr
  have htrd : toRead ≤ dst.length := Nat.min_le_left _ _
  have htra : toRead ≤ cb.readAvailability := Nat.min_le_right _ _
  set lBytes := min cb.rpos toRead with hlb
  have hlbr : lBytes ≤ cb.rpos := Nat.min_le_left _ _
  have hlbt : lBytes ≤ toRead := Nat.min_le_right _ _
  have hseg1 : (sub cb.buffer (cb.rpos - lBytes) cb.rpos).length = lBytes := by
    rw [sub_length hr]
    omega
  have hbuf1len : (listCopy dst (toRead - lBytes)
      (sub cb.buffer (cb.rpos - lBytes) cb.rpos)).length = dst.length := by
    rw [listCopy_length]
    rw [hseg1]
    omega
  by_cases hsplit : lBytes < toRead
  · -- wrapped drain: part from below `rpos`, part from the top of storage
    have heq : cb.read dst = .ok (toRead,
        listCopy (listCopy dst (toRead - lBytes) (sub cb.buffer (cb.rpos - lBytes) cb.rpos)) 0
          (sub cb.buffer (cb.buffer.length - (toRead - lBytes)) cb.buffer.length),
        { cb with rpos := cb.buffer.length - (toRead - lBytes), full := false }) := by
      rw [hlb, htr]
      simp only [Buffer.read]
      rw [if_neg (by omega), if_pos (by omega)]
    have hseg2 : (sub cb.buffer (cb.buffer.length - (toRead - lBytes))
        cb.buffer.length).length = toRead - lBytes := by
      rw [sub_length (le_refl _)]
      omega
    have hbuf2len : (listCopy (listCopy dst (toRead - lBytes)
        (sub cb.buffer (cb.rpos - lBytes) cb.rpos)) 0
        (sub cb.buffer (cb.buffer.length - (toRead - lBytes)) cb.buffer.length)).length
        = dst.length := by
      rw [listCopy_length]
      · exact hbuf1len
      · rw [hbuf1len, hseg2]
        omega
    refine ⟨_, _, heq, hbuf2len,
      Buffer.wf_mk _ _ _ _ _ rfl h1 hw (by omega) (fun hbe => by cases hbe), rfl, rfl, ?av1⟩
    case av1 =>
      rw [Buffer.avail_mk_false _ _ _ hw (by omega)]
      cases hf : cb.full
      · rw [hf] at havf
        simp only [Bool.false_eq_true, if_false] at havf
        by_cases hwr : cb.wpos ≤ cb.rpos
        · rw [if_pos hwr] at havf
          exfalso
          omega
        · rw [if_neg hwr] at havf
          split
          · omega
          · omega
      · have hweq := hfull hf
        rw [hf] at havf
        simp only [if_true] at havf
        split
        · omega
        · omega
  · -- drain entirely from below `rpos`
    have heq : cb.read dst = .ok (toRead,
        listCopy dst (toRead - lBytes) (sub cb.buffer (cb.rpos - lBytes) cb.rpos),
        { cb with rpos := cb.rpos - lBytes, full := false }) := by
      rw [hlb, htr]
      simp only [Buffer.read]
      rw [if_neg (by omega), if_neg (by omega)]
    refine ⟨_, _, heq, hbuf1len,
      Buffer.wf_mk _ _ _ _ _ rfl h1 hw (by omega) (fun hbe => by cases hbe), rfl, rfl, ?av2⟩
    case av2 =>
      rw [Buffer.avail_mk_false _ _ _ hw (by omega)]
      cases hf : cb.full
      · rw [hf] at havf
        simp only [Bool.false_eq_true, if_false] at havf
        by_cases hwr : cb.wpos ≤ cb.rpos
        · rw [if_pos hwr] at havf
          split
          · omega
          · omega
        · rw [if_neg hwr] at havf
          split
          · omega
          · omega
      · have hweq := hfull hf
        rw [hf] at havf
        simp only [if_true] at havf
        split
        · omega
        · omega

/-- `Buffer.Omit` preserves well-formedness, the storage, and the write
position. -/
theorem Buffer.omit_wf (cb : Buffer) (n : Nat) (cb1 : Buffer) (hwf : cb.wf)
    (hok : cb.omit n = .ok cb1) :
    cb1.wf ∧ cb1.buffer = cb.buffer ∧ cb1.wpos = cb.wpos := by
  obtain ⟨h1, hw, hr, hfull⟩ := hwf
  have havL : cb.readAvailability ≤ cb.buffer.length := by
    unfold Buffer.readAvailability
    omega
  unfold Buffer.omit at hok
  by_cases hn : n < 1
  · rw [if_pos hn] at hok
    cases hok
  · rw [if_neg hn] at hok
    by_cases hav : cb.readAvailability < n
    · rw [if_pos hav] at hok
      cases hok
    · rw [if_neg hav] at hok
      by_cases hrn : cb.rpos ≤ n
      · rw [if_pos hrn] at hok
        cases hok
        exact ⟨Buffer.wf_mk _ _ _ _ _ rfl h1 hw (by omega) (fun hbe => by cases hbe), rfl, rfl⟩
      · rw [if_neg hrn] at hok
        cases hok
        exact ⟨Buffer.wf_mk _ _ _ _ _ rfl h1 hw (by omega) (fun hbe => by cases hbe), rfl, rfl⟩

/-- `inMemReadAt` on an in-range request returns exactly the requested
window. -/
theorem inMem_spec (s : List Nat) (req o : Nat) (h : o + req ≤ s.length) :
    inMemReadAt s req o = { nr := req, data := sub s o (o + req), err := none } := by
  unfold inMemReadAt
  simp only [Nat.min_eq_right (by omega : req ≤ s.length - o)]
  simp

theorem inMem_goodBelow (s : List Nat) (k : Nat) (hk : k ≤ s.length) :
    goodBelow (inMemReadAt s) k := by
  intro req o h1 h2
  rw [inMem_spec s req o (by omega)]
  refine ⟨rfl, rfl, ?len⟩
  show (sub s o (o + req)).length = req
  rw [sub_length (by omega)]
  omega

theorem goodBelow_mono (src : Source) (k k' : Nat) (h : k' ≤ k) (hg : goodBelow src k) :
    goodBelow src k' := fun req o h1 h2 => hg req o h1 (by omega)

/-- Successful refill: when the staged bytes are exhausted and the source
serves the fetch window in full, the loop body stages the fetched bytes
and proceeds to the drain step at the window's start offset. -/
theorem loopBody_refill (src : Source) (toRead read : Nat) (b : List Nat) (off : Nat)
    (cb : Buffer) (hwf : cb.wf) (hav : cb.readAvailability = 0) (hoff1 : 1 ≤ off)
    (herr : (src (if off < cb.buffer.length then off else cb.buffer.length)
      (off - (if off < cb.buffer.length then off else cb.buffer.length))).err = none)
    (hnr : (src (if off < cb.buffer.length then off else cb.buffer.length)
      (off - (if off < cb.buffer.length then off else cb.buffer.length))).nr
      = (if off < cb.buffer.length then off else cb.buffer.length))
    (hdlen : (src (if off < cb.buffer.length then off else cb.buffer.length)
      (off - (if off < cb.buffer.length then off else cb.buffer.length))).data.length
      = (if off < cb.buffer.length then off else cb.buffer.length)) :
    ∃ cb1, Reader.loopBody src toRead read b off cb
        = Reader.drainBody toRead read b
            (off - (if off < cb.buffer.length then off else cb.buffer.length)) cb1 ∧
      cb1.wf ∧ cb1.buffer.length = cb.buffer.length ∧
      cb1.readAvailability = (if off < cb.buffer.length then off else cb.buffer.length) := by
  obtain ⟨h1, hw, hr, hfull⟩ := hwf
  have hwa := cb.wa_of_empty hw hav
  have hinlen : (sub (src (if off < cb.buffer.length then off else cb.buffer.length)
      (off - (if off < cb.buffer.length then off else cb.buffer.length))).data 0
      (src (if off < cb.buffer.length then off else cb.buffer.length)
      (off - (if off < cb.buffer.length then off else cb.buffer.length))).nr).length
      = (if off < cb.buffer.length then off else cb.buffer.length) := by
    rw [hnr, sub_zero, List.length_take, hdlen]
    simp
  obtain ⟨cb1, hweq, hwf1, hlen1, hrpos1, hav1⟩ :=
    Buffer.write_spec cb
      (sub (src (if off < cb.buffer.length then off else cb.buffer.length)
        (off - (if off < cb.buffer.length then off else cb.buffer.length))).data 0
        (src (if off < cb.buffer.length then off else cb.buffer.length)
        (off - (if off < cb.buffer.length then off else cb.buffer.length))).nr)
      ⟨h1, hw, hr, hfull⟩
      (by
        rw [hinlen]
        by_cases hoc : off < cb.buffer.length
        · rw [if_pos hoc]
          omega
        · rw [if_neg hoc]
          omega)
      (by rw [hwa]; omega)
  have hcnt : min cb.writeAvailability
      (sub (src (if off < cb.buffer.length then off else cb.buffer.length)
        (off - (if off < cb.buffer.length then off else cb.buffer.length))).data 0
        (src (if off < cb.buffer.length then off else cb.buffer.length)
        (off - (if off < cb.buffer.length then off else cb.buffer.length))).nr).length
      = (if off < cb.buffer.length then off else cb.buffer.length) := by
    rw [hinlen, hwa]
    by_cases hoc : off < cb.buffer.length
    · rw [if_pos hoc]
      omega
    · rw [if_neg hoc]
      omega
  rw [hcnt] at hweq
  refine ⟨cb1, ?eq, hwf1, hlen1, ?av⟩
  case av =>
    rw [hav1, hav, hcnt, Nat.zero_add]
  case eq =>
    simp only [Reader.loopBody, Buffer.size]
    rw [if_pos hav, herr, hweq, hnr]
    simp

/-- The drain step: with a well-formed buffer and an unsatisfied
request, the drain reads `rs = min(toRead - read, read_availability)`
bytes into `b[toRead-read-rs : toRead-read]` and continues. -/
theorem drainBody_spec (toRead read : Nat) (b : List Nat) (off : Nat) (cb : Buffer)
    (hwf : cb.wf) (htb : toRead ≤ b.length) (hlt : read < toRead)
    (hav : 1 ≤ cb.readAvailability) :
    ∃ seg cb2, Reader.drainBody toRead read b off cb
        = .next (read + min (toRead - read) cb.readAvailability)
            (listCopy b (toRead - read - min (toRead - read) cb.readAvailability) seg)
            off cb2 ∧
      seg.length = min (toRead - read) cb.readAvailability ∧ cb2.wf ∧
      cb2.buffer = cb.buffer ∧ cb2.wpos = cb.wpos ∧
      cb2.readAvailability = cb.readAvailability - min (toRead - read) cb.readAvailability ∧
      (listCopy b (toRead - read - min (toRead - read) cb.readAvailability) seg).length
        = b.length := by
  have hdst : (sub b (toRead - read - min (toRead - read) cb.readAvailability)
      (toRead - read)).length = min (toRead - read) cb.readAvailability := by
    rw [sub_length (by omega)]
    omega
  obtain ⟨seg, cb2, hreq, hslen, hwf2, hbuf2, hwpos2, hav2⟩ :=
    Buffer.read_spec cb
      (sub b (toRead - read - min (toRead - read) cb.readAvailability) (toRead - read))
      hwf (by rw [hdst]; omega)
  have hcnt : min (sub b (toRead - read - min (toRead - read) cb.readAvailability)
      (toRead - read)).length cb.readAvailability
      = min (toRead - read) cb.readAvailability := by
    rw [hdst]
    omega
  rw [hcnt] at hreq
  rw [hdst] at hslen
  rw [hcnt] at hav2
  have hblen : (listCopy b (toRead - read - min (toRead - read) cb.readAvailability) seg).length
      = b.length := by
    rw [listCopy_length]
    rw [hslen]
    omega
  refine ⟨seg, cb2, ?eq, hslen, hwf2, hbuf2, hwpos2, hav2, hblen⟩
  case eq =>
    simp only [Reader.drainBody]
    rw [hreq]
    simp

/-- The `Reader.Read` loop, counting view: over a source whose in-range
reads succeed and a well-formed buffer, the loop satisfies the whole
request, returns no error, keeps the slice length, and decreases
`off + read_availability` by exactly the number of bytes it drains. -/
theorem readLoop_counts (src : Source) :
    ∀ (fuel toRead read : Nat) (b : List Nat) (off : Nat) (cb : Buffer),
      cb.wf → goodBelow src off → toRead ≤ b.length → read ≤ toRead →
      toRead - read ≤ off + cb.readAvailability → toRead - read + 1 ≤ fuel →
      (Reader.readLoop src fuel toRead read b off cb).err = none ∧
      (Reader.readLoop src fuel toRead read b off cb).n = toRead ∧
      (Reader.readLoop src fuel toRead read b off cb).off
          + (Reader.readLoop src fuel toRead read b off cb).buf.readAvailability
        = off + cb.readAvailability - (toRead - read) ∧
      (Reader.readLoop src fuel toRead read b off cb).b.length = b.length := by
  intro fuel
  induction fuel with
  | zero =>
    intro toRead read b off cb hwf hg htb hrt hrem hfuel
    exact absurd hfuel (by omega)
  | succ fuel ih =>
    intro toRead read b off cb hwf hg htb hrt hrem hfuel
    have h1 := hwf.1
    by_cases hdone : read = toRead
    · simp only [Reader.readLoop, if_pos hdone]
      exact ⟨trivial, hdone, by omega, trivial⟩
    · by_cases hav : cb.readAvailability = 0
      · -- the buffer is exhausted: refill, then drain
        have hoff1 : 1 ≤ off := by omega
        obtain ⟨hserr, hsnr, hsdlen⟩ :=
          hg (if off < cb.buffer.length then off else cb.buffer.length)
            (off - (if off < cb.buffer.length then off else cb.buffer.length))
            (by
              by_cases hoc : off < cb.buffer.length
              · rw [if_pos hoc]
                omega
              · rw [if_neg hoc]
                omega)
            (by
              by_cases hoc : off < cb.buffer.length
              · rw [if_pos hoc]
                omega
              · rw [if_neg hoc]
                omega)
        obtain ⟨cb1, hbody, hwf1, hlen1, hav1⟩ :=
          loopBody_refill src toRead read b off cb hwf hav hoff1 hserr hsnr hsdlen
        have hm1 : 1 ≤ (if off < cb.buffer.length then off else cb.buffer.length) := by
          by_cases hoc : off < cb.buffer.length
          · rw [if_pos hoc]
            omega
          · rw [if_neg hoc]
            omega
        have hmo : (if off < cb.buffer.length then off else cb.buffer.length) ≤ off := by
          by_cases hoc : off < cb.buffer.length
          · rw [if_pos hoc]
          · rw [if_neg hoc]
            omega
        generalize hgm : (if off < cb.buffer.length then off else cb.buffer.length) = m
          at hbody hav1 hm1 hmo
        obtain ⟨seg, cb2, hdrain, hslen, hwf2, hbuf2, hwpos2, hav2, hblen⟩ :=
          drainBody_spec toRead read b (off - m) cb1 hwf1 htb (by omega) (by omega)
        obtain ⟨ih1, ih2, ih3, ih4⟩ :=
          ih toRead (read + min (toRead - read) cb1.readAvailability)
            (listCopy b (toRead - read - min (toRead - read) cb1.readAvailability) seg)
            (off - m) cb2 hwf2 (goodBelow_mono src off (off - m) (by omega) hg)
            (by rw [hblen]; exact htb) (by omega) (by omega) (by omega)
        simp only [Reader.readLoop, if_neg hdone, hbody, hdrain]
        exact ⟨ih1, ih2, by omega, ih4.trans hblen⟩
      · -- staged bytes are available: drain directly
        obtain ⟨seg, cb2, hdrain, hslen, hwf2, hbuf2, hwpos2, hav2, hblen⟩ :=
          drainBody_spec toRead read b off cb hwf htb (by omega) (by omega)
        obtain ⟨ih1, ih2, ih3, ih4⟩ :=
          ih toRead (read + min (toRead - read) cb.readAvailability)
            (listCopy b (toRead - read - min (toRead - read) cb.readAvailability) seg)
            off cb2 hwf2 hg
            (by rw [hblen]; exact htb) (by omega) (by omega) (by omega)
        simp only [Reader.readLoop, if_neg hdone, Reader.loopBody, if_neg hav, hdrain]
        exact ⟨ih1, ih2, by omega, ih4.trans hblen⟩

/-- Inversion of a successful `Buffer.Write`. -/
theorem Buffer.write_inv (cb : Buffer) (v : List Nat) (t : Nat) (cb1 : Buffer) (hwf : cb.wf)
    (h : cb.write v = .ok (t, cb1)) :
    t = min cb.writeAvailability v.length ∧ 1 ≤ t ∧ cb1.wf ∧
      cb1.buffer.length = cb.buffer.length ∧ cb1.rpos = cb.rpos ∧
      cb1.readAvailability = cb.readAvailability + t := by
  by_cases hv : v.length = 0
  · unfold Buffer.write at h
    rw [if_pos hv] at h
    cases h
  · by_cases hcap : min cb.writeAvailability v.length = 0
    · unfold Buffer.write at h
      rw [if_neg hv] at h
      simp only [hcap] at h
      cases h
    · obtain ⟨cb1', heq, hwf1, hlen1, hrpos1, hav1⟩ :=
        Buffer.write_spec cb v hwf (by omega) (by omega)
      rw [heq] at h
      simp only [Except.ok.injEq, Prod.mk.injEq] at h
      obtain ⟨h1, h2⟩ := h
      subst h2
      exact ⟨h1.symm, by omega, hwf1, hlen1, hrpos1, by omega⟩

/-- A failing `Buffer.Write` fails on an empty input or a full buffer. -/
theorem Buffer.write_err_inv (cb : Buffer) (v : List Nat) (e : Err)
    (h : cb.write v = .error e) : e = .bufInputEmpty ∨ e = .bufFull := by
  unfold Buffer.write at h
  by_cases hv : v.length = 0
  · rw [if_pos hv] at h
    cases h
    exact Or.inl rfl
  · rw [if_neg hv] at h
    by_cases hcap : min cb.writeAvailability v.length = 0
    · simp only [hcap, if_pos rfl] at h
      cases h
      exact Or.inr rfl
    · simp only [if_neg hcap] at h
      by_cases hb1 : cb.wpos ≤ cb.rpos
      · rw [if_pos hb1] at h
        by_cases hb2 : min cb.writeAvailability v.length < cb.wpos
        · rw [if_pos hb2] at h
          cases h
        · rw [if_neg hb2] at h
          cases h
      · rw [if_neg hb1] at h
        cases h

/-- Inversion of a successful `Buffer.Read`. -/
theorem Buffer.read_inv (cb : Buffer) (dst : List Nat) (nn : Nat) (seg : List Nat)
    (cb2 : Buffer) (hwf : cb.wf) (h : cb.read dst = .ok (nn, seg, cb2)) :
    1 ≤ dst.length ∧ nn = min dst.length cb.readAvailability ∧ seg.length = dst.length ∧
      cb2.wf ∧ cb2.buffer = cb.buffer ∧
      cb2.readAvailability = cb.readAvailability - nn := by
  by_cases hd : dst.length = 0
  · unfold Buffer.read at h
    rw [if_pos hd] at h
    cases h
  · obtain ⟨seg', cb2', heq, hslen, hwf2, hbuf2, hwpos2, hav2⟩ :=
      Buffer.read_spec cb dst hwf (by omega)
    rw [heq] at h
    simp only [Except.ok.injEq, Prod.mk.injEq] at h
    obtain ⟨h1, h2, h3⟩ := h
    subst h2
    subst h3
    exact ⟨by omega, h1.symm, hslen, hwf2, hbuf2, by omega⟩

/-- A failing `Buffer.Read` fails on an empty target. -/
theorem Buffer.read_err_inv (cb : Buffer) (dst : List Nat) (e : Err)
    (h : cb.read dst = .error e) : e = .bufTargetEmpty := by
  unfold Buffer.read at h
  by_cases hd : dst.length = 0
  · rw [if_pos hd] at h
    cases h
    rfl
  · rw [if_neg hd] at h
    by_cases hs : min cb.rpos (min dst.length cb.readAvailability)
        < min dst.length cb.readAvailability
    · rw [if_pos hs] at h
      cases h
    · rw [if_neg hs] at h
      cases h

/-- Every returning (`halt`) branch of the loop body reports count 0:
the error returns of `Reader.Read` discard the running count. -/
theorem loopBody_halt_n (src : Source) (toRead read : Nat) (b : List Nat) (off : Nat)
    (cb : Buffer) (res : ReadRes)
    (h : Reader.loopBody src toRead read b off cb = .halt res) : res.n = 0 := by
  simp only [Reader.loopBody, Reader.drainBody, Buffer.size] at h
  split at h
  all_goals (try split at h)
  all_goals (try split at h)
  all_goals (try split at h)
  all_goals (try split at h)
  all_goals (try split at h)
  all_goals (try split at h)
  all_goals first
    | (injection h with h1; subst h1; rfl)
    | injection h

/-- Classification of the drain step: either nothing can be drained
(`min(toRead-read, read_availability) = 0`, the empty-target read error
is returned with count 0), or the drain succeeds and the loop
continues. -/
theorem drainBody_cases (toRead read : Nat) (b : List Nat) (off : Nat) (cb : Buffer)
    (hwf : cb.wf) (htb : toRead ≤ b.length) :
    (min (toRead - read) cb.readAvailability = 0 ∧
      Reader.drainBody toRead read b off cb
        = .halt { n := 0, b := b, off := off, buf := cb, err := some .bufTargetEmpty }) ∨
    (1 ≤ min (toRead - read) cb.readAvailability ∧
      ∃ seg cb2, Reader.drainBody toRead read b off cb
        = .next (read + min (toRead - read) cb.readAvailability)
            (listCopy b (toRead - read - min (toRead - read) cb.readAvailability) seg) off cb2 ∧
        seg.length = min (toRead - read) cb.readAvailability ∧ cb2.wf ∧
        cb2.buffer = cb.buffer ∧
        cb2.readAvailability = cb.readAvailability - min (toRead - read) cb.readAvailability ∧
        (listCopy b (toRead - read - min (toRead - read) cb.readAvailability) seg).length
          = b.length) := by
  by_cases hrs : min (toRead - read) cb.readAvailability = 0
  · left
    refine ⟨hrs, ?ev⟩
    have hdst0 : (sub b (toRead - read - min (toRead - read) cb.readAvailability)
        (toRead - read)).length = 0 := by
      rw [sub_length (by omega)]
      omega
    have herr : cb.read (sub b (toRead - read - min (toRead - read) cb.readAvailability)
        (toRead - read)) = .error .bufTargetEmpty := by
      unfold Buffer.read
      rw [if_pos hdst0]
    simp only [Reader.drainBody]
    rw [herr]
  · right
    obtain ⟨seg, cb2, hdrain, hslen, hwf2, hbuf2, hwpos2, hav2, hblen⟩ :=
      drainBody_spec toRead read b off cb hwf htb (by omega) (by omega)
    exact ⟨by omega, seg, cb2, hdrain, hslen, hwf2, hbuf2, hav2, hblen⟩

/-- Classification of one iteration of the `Reader.Read` loop body over
an arbitrary source: either the call returns with count 0 (and, when the
source's counts are sane and it does not itself return `ErrInternal`,
the carried error is not `ErrInternal`), or the loop continues with the
invariants preserved. -/
theorem loopBody_cases (src : Source) (toRead read : Nat) (b : List Nat) (off : Nat)
    (cb : Buffer) (hwf : cb.wf) (htb : toRead ≤ b.length) :
    (∃ res, Reader.loopBody src toRead read b off cb = .halt res ∧ res.n = 0 ∧
      ((∀ req o, (src req o).nr ≤ req) → (∀ req o, (src req o).data.length = req) →
        (∀ req o e, (src req o).err = some e → e ≠ Err.internal) →
        res.err ≠ some Err.internal)) ∨
    (∃ read' b' off' cb', Reader.loopBody src toRead read b off cb = .next read' b' off' cb' ∧
      cb'.wf ∧ b'.length = b.length ∧ read < read' ∧ read' ≤ toRead) := by
  by_cases hav : cb.readAvailability = 0
  · -- refill path
    have hwa := cb.wa_of_empty hwf.2.1 hav
    have hmc : (if off < cb.buffer.length then off else cb.buffer.length)
        ≤ cb.buffer.length := by
      by_cases hoc : off < cb.buffer.length
      · rw [if_pos hoc]
        omega
      · rw [if_neg hoc]
    cases hse : (src (if off < cb.buffer.length then off else cb.buffer.length)
        (off - (if off < cb.buffer.length then off else cb.buffer.length))).err with
    | some e =>
      left
      refine ⟨{ n := 0, b := b, off := off, buf := cb, err := some e }, ?ev, rfl, ?ni⟩
      case ev =>
        simp only [Reader.loopBody, Buffer.size]
        rw [if_pos hav, hse]
      case ni =>
        intro hn1 hn2 hn3 hc
        injection hc with hc2
        exact hn3 _ _ e hse hc2
    | none =>
      cases hwr : cb.write (sub (src (if off < cb.buffer.length then off else cb.buffer.length)
          (off - (if off < cb.buffer.length then off else cb.buffer.length))).data 0
          (src (if off < cb.buffer.length then off else cb.buffer.length)
          (off - (if off < cb.buffer.length then off else cb.buffer.length))).nr) with
      | error e =>
        left
        refine ⟨{ n := 0, b := b, off := off, buf := cb, err := some e }, ?ev, rfl, ?ni⟩
        case ev =>
          simp only [Reader.loopBody, Buffer.size]
          rw [if_pos hav, hse, hwr]
        case ni =>
          intro hn1 hn2 hn3 hc
          injection hc with hc2
          subst hc2
          have := Buffer.write_err_inv cb _ _ hwr
          simp at this
      | ok p =>
        obtain ⟨nw, cb1⟩ := p
        obtain ⟨hti, ht1, hwf1, hlen1, hrpos1, hav1⟩ :=
          Buffer.write_inv cb _ nw cb1 hwf hwr
        by_cases hne : (src (if off < cb.buffer.length then off else cb.buffer.length)
            (off - (if off < cb.buffer.length then off else cb.buffer.length))).nr = nw
        · -- the internal check passes; the drain step follows
          have hevb : Reader.loopBody src toRead read b off cb
              = Reader.drainBody toRead read b
                (off - (if off < cb.buffer.length then off else cb.buffer.length)) cb1 := by
            simp only [Reader.loopBody, Buffer.size]
            rw [if_pos hav, hse, hwr]
            simp [hne]
          rcases drainBody_cases toRead read b
              (off - (if off < cb.buffer.length then off else cb.buffer.length)) cb1 hwf1 htb with
            ⟨hrs0, hdr⟩ | ⟨hrs1, seg, cb2, hdr, hslen, hwf2, hbuf2, hav2, hblen⟩
          · left
            refine ⟨_, hevb.trans hdr, rfl, ?ni⟩
            case ni =>
              intro hn1 hn2 hn3 hc
              injection hc with hc2
              simp at hc2
          · right
            refine ⟨_, _, _, _, hevb.trans hdr, hwf2, hblen, by omega, by omega⟩
        · -- a short write: the internal check fires
          left
          refine ⟨{ n := 0, b := b, off := off, buf := cb1, err := some .internal },
            ?ev, rfl, ?ni⟩
          case ev =>
            simp only [Reader.loopBody, Buffer.size]
            rw [if_pos hav, hse, hwr]
            simp [hne]
          case ni =>
            intro hn1 hn2 hn3 hc
            exfalso
            apply hne
            have hinlen : (sub (src (if off < cb.buffer.length then off else cb.buffer.length)
                (off - (if off < cb.buffer.length then off else cb.buffer.length))).data 0
                (src (if off < cb.buffer.length then off else cb.buffer.length)
                (off - (if off < cb.buffer.length then off else cb.buffer.length))).nr).length
                = (src (if off < cb.buffer.length then off else cb.buffer.length)
                (off - (if off < cb.buffer.length then off else cb.buffer.length))).nr := by
              rw [sub_zero, List.length_take, hn2]
              exact Nat.min_eq_left (hn1 _ _)
            rw [hti, hinlen, hwa]
            exact (Nat.min_eq_right (le_trans (hn1 _ _) hmc)).symm
  · -- direct drain path
    have hevb : Reader.loopBody src toRead read b off cb
        = Reader.drainBody toRead read b off cb := by
      simp only [Reader.loopBody, Buffer.size]
      rw [if_neg hav]
    rcases drainBody_cases toRead read b off cb hwf htb with
      ⟨hrs0, hdr⟩ | ⟨hrs1, seg, cb2, hdr, hslen, hwf2, hbuf2, hav2, hblen⟩
    · left
      refine ⟨_, hevb.trans hdr, rfl, ?ni⟩
      case ni =>
        intro hn1 hn2 hn3 hc
        injection hc with hc2
        simp at hc2
    · right
      refine ⟨_, _, _, _, hevb.trans hdr, hwf2, hblen, by omega, by omega⟩

/-- Over any source with sane byte counts that does not itself return
`ErrInternal`, the `Reader.Read` loop never returns `ErrInternal`. -/
theorem readLoop_no_internal (src : Source)
    (hnr : ∀ req o, (src req o).nr ≤ req)
    (hlen : ∀ req o, (src req o).data.length = req)
    (hserr : ∀ req o e, (src req o).err = some e → e ≠ Err.internal) :
    ∀ (fuel toRead read : Nat) (b : List Nat) (off : Nat) (cb : Buffer),
      cb.wf → toRead ≤ b.length →
      (Reader.readLoop src fuel toRead read b off cb).err ≠ some Err.internal := by
  intro fuel
  induction fuel with
  | zero =>
    intro toRead read b off cb hwf htb
    simp [Reader.readLoop]
  | succ fuel ih =>
    intro toRead read b off cb hwf htb
    by_cases hdone : read = toRead
    · simp [Reader.readLoop, if_pos hdone]
    · rcases loopBody_cases src toRead read b off cb hwf htb with
        ⟨res, hlb, hn0, hni⟩ | ⟨read', b', off', cb', hlb, hwf', hblen, hlt, hle⟩
      · simp only [Reader.readLoop, if_neg hdone, hlb]
        exact hni hnr hlen hserr
      · simp only [Reader.readLoop, if_neg hdone, hlb]
        exact ih toRead read' b' off' cb' hwf' (by omega)

/-- With enough fuel, whenever the `Reader.Read` loop reports an error,
the reported count is zero. -/
theorem readLoop_n_zero (src : Source) :
    ∀ (fuel toRead read : Nat) (b : List Nat) (off : Nat) (cb : Buffer),
      cb.wf → toRead ≤ b.length → toRead - read + 1 ≤ fuel →
      ∀ e, (Reader.readLoop src fuel toRead read b off cb).err = some e →
        (Reader.readLoop src fuel toRead read b off cb).n = 0 := by
  intro fuel
  induction fuel with
  | zero =>
    intro toRead read b off cb hwf htb hfuel
    exact absurd hfuel (by omega)
  | succ fuel ih =>
    intro toRead read b off cb hwf htb hfuel e
    by_cases hdone : read = toRead
    · simp only [Reader.readLoop, if_pos hdone]
      intro hc
      exact Option.noConfusion hc
    · rcases loopBody_cases src toRead read b off cb hwf htb with
        ⟨res, hlb, hn0, hni⟩ | ⟨read', b', off', cb', hlb, hwf', hblen, hlt, hle⟩
      · simp only [Reader.readLoop, if_neg hdone, hlb]
        intro hc
        exact hn0
      · simp only [Reader.readLoop, if_neg hdone, hlb]
        exact ih toRead read' b' off' cb' hwf' (by omega) (by omega) e

theorem write_empty_low (st v : List Nat) (wp : Nat) (hwp : wp = 0 ∨ wp = st.length)
    (h1 : 1 ≤ st.length) (hv1 : 1 ≤ v.length) (hlt : v.length < st.length) :
    (Buffer.mk st wp 0 false).write v
      = .ok (v.length, Buffer.mk (st.take (st.length - v.length) ++ v)
          (st.length - v.length) 0 false) := by
  have hb : (st.length - v.length == 0) = false := by
    simp only [beq_eq_false_iff_ne, ne_eq]
    omega
  rcases hwp with hwp | hwp <;> subst hwp
  · simp [Buffer.write, Buffer.writeAvailability, sub, listCopy,
      show ¬(v.length = 0) from by omega, Nat.min_eq_right (le_of_lt hlt),
      Nat.sub_sub_self (le_of_lt hlt), Nat.sub_add_cancel (le_of_lt hlt), hb]
  · simp [Buffer.write, Buffer.writeAvailability, sub, listCopy,
      show ¬(v.length = 0) from by omega, show ¬(st.length ≤ 0) from by omega,
      Nat.min_eq_right (le_of_lt hlt),
      Nat.sub_sub_self (le_of_lt hlt), Nat.sub_add_cancel (le_of_lt hlt), hb]

theorem write_empty_low_full (st v : List Nat) (wp : Nat) (hwp : wp = 0 ∨ wp = st.length)
    (h1 : 1 ≤ st.length) (hv1 : 1 ≤ v.length) (heq : v.length = st.length) :
    (Buffer.mk st wp 0 false).write v = .ok (v.length, Buffer.mk v 0 0 true) := by
  have hne : st ≠ [] := List.ne_nil_of_length_pos (by omega)
  have htk : List.take st.length v = v := List.take_of_length_le (le_of_eq heq)
  rcases hwp with hwp | hwp <;> subst hwp
  · simp [Buffer.write, Buffer.writeAvailability, sub, listCopy,
      show ¬(v.length = 0) from by omega, Nat.min_eq_right (le_of_eq heq),
      heq, hne, htk, Nat.sub_sub_self (le_refl st.length)]
  · simp [Buffer.write, Buffer.writeAvailability, sub, listCopy,
      show ¬(v.length = 0) from by omega, show ¬(st.length ≤ 0) from by omega,
      Nat.min_eq_right (le_of_eq heq), heq, hne, htk]

theorem write_empty_high (st v : List Nat)
    (h1 : 1 ≤ st.length) (hv1 : 1 ≤ v.length) (hlt : v.length < st.length) :
    (Buffer.mk st st.length st.length false).write v
      = .ok (v.length, Buffer.mk (st.take (st.length - v.length) ++ v)
          (st.length - v.length) st.length false) := by
  have hb : (st.length - v.length == st.length) = false := by
    simp only [beq_eq_false_iff_ne, ne_eq]
    omega
  simp [Buffer.write, Buffer.writeAvailability, sub, listCopy,
    show ¬(v.length = 0) from by omega, Nat.min_eq_right (le_of_lt hlt),
    show v.length < st.length from hlt,
    Nat.sub_sub_self (le_of_lt hlt), Nat.sub_add_cancel (le_of_lt hlt), hb]

theorem write_empty_high_full (st v : List Nat)
    (h1 : 1 ≤ st.length) (hv1 : 1 ≤ v.length) (heq : v.length = st.length) :
    (Buffer.mk st st.length st.length false).write v
      = .ok (v.length, Buffer.mk v st.length st.length true) := by
  have hne : st ≠ [] := List.ne_nil_of_length_pos (by omega)
  have htk : List.take st.length v = v := List.take_of_length_le (le_of_eq heq)
  simp [Buffer.write, Buffer.writeAvailability, sub, listCopy,
    show ¬(v.length = 0) from by omega, Nat.min_eq_right (le_of_eq heq),
    show ¬(v.length < st.length) from by omega, heq, hne, htk]

theorem read_staged_low (st v dst : List Nat)
    (hv1 : 1 ≤ v.length) (hlt : v.length < st.length) (hd : dst.length = v.length) :
    (Buffer.mk (st.take (st.length - v.length) ++ v) (st.length - v.length) 0 false).read dst
      = .ok (v.length, v, Buffer.mk (st.take (st.length - v.length) ++ v)
          (st.length - v.length) (st.length - v.length) false) := by
  have f1 : (st.take (st.length - v.length) ++ v).length = st.length := by
    simp [List.length_take]
    omega
  have htks : (st.take (st.length - v.length) ++ v).take st.length
      = st.take (st.length - v.length) ++ v := List.take_of_length_le (le_of_eq f1)
  have hdropstor : (st.take (st.length - v.length) ++ v).drop (st.length - v.length) = v :=
    List.drop_left' (by simp [List.length_take])
  have htked : dst.take v.length = dst := List.take_of_length_le (le_of_eq hd)
  have hdroped : dst.drop v.length = [] := by
    rw [← hd, List.drop_length]
  have hvne : v ≠ [] := List.ne_nil_of_length_pos (by omega)
  simp [hvne, Buffer.read, Buffer.readAvailability, Buffer.writeAvailability, sub, listCopy,
    show ¬(dst.length = 0) from by omega, show ¬(st.length - v.length ≤ 0) from by omega,
    f1, htks, hdropstor, htked, hdroped, hd,
    Nat.sub_sub_self (le_of_lt hlt), show 0 < v.length from by omega]

theorem read_staged_high (st v dst : List Nat)
    (hv1 : 1 ≤ v.length) (hlt : v.length < st.length) (hd : dst.length = v.length) :
    (Buffer.mk (st.take (st.length - v.length) ++ v) (st.length - v.length) st.length
        false).read dst
      = .ok (v.length, v, Buffer.mk (st.take (st.length - v.length) ++ v)
          (st.length - v.length) (st.length - v.length) false) := by
  have f1 : (st.take (st.length - v.length) ++ v).length = st.length := by
    simp [List.length_take]
    omega
  have htks : (st.take (st.length - v.length) ++ v).take st.length
      = st.take (st.length - v.length) ++ v := List.take_of_length_le (le_of_eq f1)
  have hdropstor : (st.take (st.length - v.length) ++ v).drop (st.length - v.length) = v :=
    List.drop_left' (by simp [List.length_take])
  have htked : dst.take v.length = dst := List.take_of_length_le (le_of_eq hd)
  have hdroped : dst.drop v.length = [] := by
    rw [← hd, List.drop_length]
  have hvne : v ≠ [] := List.ne_nil_of_length_pos (by omega)
  simp [hvne, Buffer.read, Buffer.readAvailability, Buffer.writeAvailability, sub, listCopy,
    show ¬(dst.length = 0) from by omega, Nat.sub_le st.length v.length,
    f1, htks, hdropstor, htked, hdroped, hd,
    Nat.sub_sub_self (le_of_lt hlt), Nat.min_eq_right (le_of_lt hlt)]

theorem read_full_zero (v dst : List Nat) (hv1 : 1 ≤ v.length) (hd : dst.length = v.length) :
    (Buffer.mk v 0 0 true).read dst = .ok (v.length, v, Buffer.mk v 0 0 false) := by
  have htked : dst.take v.length = dst := List.take_of_length_le (le_of_eq hd)
  have hdroped : dst.drop v.length = [] := by
    rw [← hd, List.drop_length]
  have hvne : v ≠ [] := List.ne_nil_of_length_pos (by omega)
  simp [hvne, Buffer.read, Buffer.readAvailability, Buffer.writeAvailability, sub, listCopy,
    show ¬(dst.length = 0) from by omega, hd, htked, hdroped,
    show 0 < v.length from by omega]

theorem read_full_top (v dst : List Nat) (hv1 : 1 ≤ v.length) (hd : dst.length = v.length) :
    (Buffer.mk v v.length v.length true).read dst
      = .ok (v.length, v, Buffer.mk v v.length 0 false) := by
  have htked : dst.take v.length = dst := List.take_of_length_le (le_of_eq hd)
  have hdroped : dst.drop v.length = [] := by
    rw [← hd, List.drop_length]
  have hvne : v ≠ [] := List.ne_nil_of_length_pos (by omega)
  simp [hvne, Buffer.read, Buffer.readAvailability, Buffer.writeAvailability, sub, listCopy,
    show ¬(dst.length = 0) from by omega, hd, htked, hdroped]

theorem refill_drain (cb : Buffer) (v dst : List Nat)
    (h1 : 1 ≤ cb.buffer.length) (hw : cb.wpos ≤ cb.buffer.length)
    (he : cb.readAvailability = 0) (hr0 : cb.rpos = 0 ∨ cb.rpos = cb.buffer.length)
    (hv1 : 1 ≤ v.length) (hvc : v.length ≤ cb.buffer.length) (hd : dst.length = v.length) :
    ∃ cb1 cb2,
      cb.write v = .ok (v.length, cb1) ∧
      cb1.readAvailability = v.length ∧ cb1.buffer.length = cb.buffer.length ∧ cb1.wf ∧
      cb1.read dst = .ok (v.length, v, cb2) ∧
      cb2.buffer.length = cb.buffer.length ∧ cb2.wpos ≤ cb.buffer.length ∧
      cb2.readAvailability = 0 ∧
      (v.length = cb.buffer.length → cb2.rpos = 0 ∨ cb2.rpos = cb.buffer.length) := by
  have hnf : cb.full = false := cb.full_false_of_empty h1 he
  have hwa : cb.writeAvailability = cb.buffer.length := cb.wa_of_empty hw he
  obtain ⟨st, wp, rp, fl⟩ := cb
  have hfl : fl = false := hnf
  subst hfl
  have h1' : 1 ≤ st.length := h1
  have hw' : wp ≤ st.length := hw
  have hvc' : v.length ≤ st.length := hvc
  rcases hr0 with hr0 | hr0
  · -- staged region starts at index 0
    have hrp : rp = 0 := hr0
    subst hrp
    have hwcases : wp = 0 ∨ wp = st.length := by
      have h2 : (Buffer.mk st wp 0 false).writeAvailability = st.length := hwa
      unfold Buffer.writeAvailability at h2
      simp only [Bool.false_eq_true, if_false] at h2
      by_cases hwp : wp ≤ (0 : Nat)
      · rw [if_pos hwp] at h2
        left
        omega
      · rw [if_neg hwp] at h2
        right
        omega
    by_cases hnL : v.length = st.length
    · refine ⟨Buffer.mk v 0 0 true, Buffer.mk v 0 0 false,
        write_empty_low_full st v wp hwcases h1' hv1 hnL,
        ?a1, hnL,
        Buffer.wf_mk v 0 0 v.length true rfl hv1 (Nat.zero_le _) (Nat.zero_le _)
          (fun _ => rfl),
        read_full_zero v dst hv1 hd, hnL, Nat.zero_le _, ?a2, fun _ => Or.inl rfl⟩
      case a1 =>
        simp [Buffer.readAvailability, Buffer.writeAvailability]
      case a2 =>
        simp [Buffer.readAvailability, Buffer.writeAvailability]
    · have f1 : (st.take (st.length - v.length) ++ v).length = st.length := by
        simp [List.length_take]
        omega
      refine ⟨Buffer.mk (st.take (st.length - v.length) ++ v) (st.length - v.length) 0 false,
        Buffer.mk (st.take (st.length - v.length) ++ v) (st.length - v.length)
          (st.length - v.length) false,
        write_empty_low st v wp hwcases h1' hv1 (by omega),
        ?b1, f1,
        Buffer.wf_mk _ (st.length - v.length) 0 st.length false f1 h1' (by omega)
          (by omega) (fun hh => by cases hh),
        read_staged_low st v dst hv1 (by omega) hd,
        f1, show st.length - v.length ≤ st.length from by omega, ?b2,
        fun hh => absurd hh hnL⟩
      case b1 =>
        show (st.take (st.length - v.length) ++ v).length
          - (Buffer.mk (st.take (st.length - v.length) ++ v) (st.length - v.length) 0
              false).writeAvailability = v.length
        unfold Buffer.writeAvailability
        simp only [Bool.false_eq_true, if_false]
        rw [if_neg (by omega : ¬(st.length - v.length ≤ 0))]
        rw [f1]
        omega
      case b2 =>
        show (st.take (st.length - v.length) ++ v).length
          - (Buffer.mk (st.take (st.length - v.length) ++ v) (st.length - v.length)
              (st.length - v.length) false).writeAvailability = 0
        unfold Buffer.writeAvailability
        simp only [Bool.false_eq_true, if_false]
        rw [if_pos (by omega : st.length - v.length ≤ st.length - v.length)]
        rw [f1]
        omega
  · -- staged region ends at the capacity
    have hrp : rp = st.length := hr0
    subst hrp
    have hwc : wp = st.length := by
      have h2 : (Buffer.mk st wp st.length false).writeAvailability = st.length := hwa
      unfold Buffer.writeAvailability at h2
      simp only [Bool.false_eq_true, if_false] at h2
      rw [if_pos (by exact hw')] at h2
      omega
    subst hwc
    by_cases hnL : v.length = st.length
    · refine ⟨Buffer.mk v st.length st.length true, Buffer.mk v st.length 0 false,
        write_empty_high_full st v h1' hv1 hnL,
        ?c1, hnL,
        Buffer.wf_mk v st.length st.length st.length true hnL h1' (Nat.le_refl _)
          (Nat.le_refl _) (fun _ => rfl),
        ?c2, hnL, Nat.le_refl _, ?c3, fun _ => Or.inl rfl⟩
      case c1 =>
        simp [Buffer.readAvailability, Buffer.writeAvailability]
      case c2 =>
        rw [← hnL]
        exact read_full_top v dst hv1 hd
      case c3 =>
        show v.length - (Buffer.mk v st.length 0 false).writeAvailability = 0
        unfold Buffer.writeAvailability
        simp only [Bool.false_eq_true, if_false]
        rw [if_neg (by omega : ¬(st.length ≤ 0))]
        omega
    · have f1 : (st.take (st.length - v.length) ++ v).length = st.length := by
        simp [List.length_take]
        omega
      refine ⟨Buffer.mk (st.take (st.length - v.length) ++ v) (st.length - v.length)
          st.length false,
        Buffer.mk (st.take (st.length - v.length) ++ v) (st.length - v.length)
          (st.length - v.length) false,
        write_empty_high st v h1' hv1 (by omega),
        ?d1, f1,
        Buffer.wf_mk _ (st.length - v.length) st.length st.length false f1 h1'
          (by omega) (Nat.le_refl _) (fun hh => by cases hh),
        read_staged_high st v dst hv1 (by omega) hd,
        f1, show st.length - v.length ≤ st.length from by omega, ?d2,
        fun hh => absurd hh hnL⟩
      case d1 =>
        show (st.take (st.length - v.length) ++ v).length
          - (Buffer.mk (st.take (st.length - v.length) ++ v) (st.length - v.length)
              st.length false).writeAvailability = v.length
        unfold Buffer.writeAvailability
        simp only [Bool.false_eq_true, if_false]
        rw [if_pos (by omega : st.length - v.length ≤ st.length)]
        rw [f1]
        omega
      case d2 =>
        show (st.take (st.length - v.length) ++ v).length
          - (Buffer.mk (st.take (st.length - v.length) ++ v) (st.length - v.length)
              (st.length - v.length) false).writeAvailability = 0
        unfold Buffer.writeAvailability
        simp only [Bool.false_eq_true, if_false]
        rw [if_pos (by omega : st.length - v.length ≤ st.length - v.length)]
        rw [f1]
        omega

theorem Buffer.write_nil (cb : Buffer) : cb.write [] = .error .bufInputEmpty := rfl

/-- The loop result `Reader.Read` computes before its final error check. -/
def Reader.loopRes (r : Reader) (b : List Nat) : ReadRes :=
  Reader.readLoop r.ir (b.length + 1) (min b.length (Reader.offset r)) 0 b r.off r.buf

/-- `Reader.Read` on a nonempty slice returns the loop's result, with
`NoContent` put in place of `nil` when the loop satisfied less than the
whole slice. -/
theorem Reader.read_cases (r : Reader) (b : List Nat) (hb : ¬ b.length = 0) :
    (Reader.read r b = Reader.loopRes r b ∧
      ((Reader.loopRes r b).err ≠ none ∨ b.length ≤ (Reader.loopRes r b).n)) ∨
    (Reader.read r b = { Reader.loopRes r b with err := some Err.noContent } ∧
      (Reader.loopRes r b).err = none ∧ (Reader.loopRes r b).n < b.length) := by
  have hu : Reader.read r b
      = match (Reader.loopRes r b).err with
        | some _ => Reader.loopRes r b
        | none =>
          if (Reader.loopRes r b).n < b.length
          then { Reader.loopRes r b with err := some Err.noContent }
          else Reader.loopRes r b := by
    simp only [Reader.read, Reader.loopRes]
    rw [if_neg hb]
  cases hres : (Reader.loopRes r b).err with
  | none =>
    rw [hres] at hu
    by_cases hlt : (Reader.loopRes r b).n < b.length
    · rw [if_pos hlt] at hu
      exact Or.inr ⟨hu, rfl, hlt⟩
    · rw [if_neg hlt] at hu
      exact Or.inl ⟨hu, Or.inr (by omega)⟩
  | some e =>
    rw [hres] at hu
    exact Or.inl ⟨hu, Or.inl (Option.some_ne_none e)⟩

theorem inMem_nr_le (s : List Nat) : ∀ req o, (inMemReadAt s req o).nr ≤ req := by
  intro req o
  simp [inMemReadAt]

theorem inMem_data_len (s : List Nat) : ∀ req o, (inMemReadAt s req o).data.length = req := by
  intro req o
  simp [inMemReadAt, sub]
  omega

theorem inMem_err_not_internal (s : List Nat) :
    ∀ req o e, (inMemReadAt s req o).err = some e → e ≠ Err.internal := by
  intro req o e h
  simp [inMemReadAt] at h

/-- C2: the spec promises that a `ReadAt` whose target lies strictly
inside the staged window, followed by an equal-size read, returns the
bytes of the source at the requested absolute window.  The code omits
`target - tracked_offset` staged bytes instead of `offset() - target`,
so the read that follows returns the wrong bytes: over the source
`[1,2,3,4]` with capacity 4, after one byte is read the staged window is
`[0, 3)`; `ReadAt` of two bytes at target offset 2 should return
`[1, 2]` but returns `[2, 1]`. -/
theorem c2_read_at_wrong_bytes :
    (Reader.read ⟨inMemReadAt [1, 2, 3, 4], 4, freshBuf 4⟩ [0]).b = [4] ∧
    (Reader.read ⟨inMemReadAt [1, 2, 3, 4], 4, freshBuf 4⟩ [0]).off = 0 ∧
    (Reader.read ⟨inMemReadAt [1, 2, 3, 4], 4, freshBuf 4⟩ [0]).buf
      = Buffer.mk [1, 2, 3, 4] 4 3 false ∧
    (Reader.read ⟨inMemReadAt [1, 2, 3, 4], 4, freshBuf 4⟩ [0]).err = none ∧
    (Reader.readAt ⟨inMemReadAt [1, 2, 3, 4], 0, Buffer.mk [1, 2, 3, 4] 4 3 false⟩
        [0, 0] 2).n = 2 ∧
    (Reader.readAt ⟨inMemReadAt [1, 2, 3, 4], 0, Buffer.mk [1, 2, 3, 4] 4 3 false⟩
        [0, 0] 2).err = none ∧
    (Reader.readAt ⟨inMemReadAt [1, 2, 3, 4], 0, Buffer.mk [1, 2, 3, 4] 4 3 false⟩
        [0, 0] 2).b = [2, 1] ∧
    sub [1, 2, 3, 4] 0 2 = [1, 2] ∧ ([2, 1] : List Nat) ≠ [1, 2] := by
  refine ⟨rfl, rfl, rfl, rfl, rfl, rfl, rfl, rfl, by decide⟩

/-- C5: the spec promises that a write whose run wraps around the
storage boundary places the bytes so that a subsequent full drain
returns them in their original left-to-right order.  The wrapping branch
of `Buffer.Write` stores the two halves swapped relative to how
`Buffer.Read` reassembles them: on a capacity-2 buffer reachable by
writing and reading one byte, writing `[8, 9]` and draining both bytes
returns `[9, 8]`. -/
theorem c5_write_order_bug :
    Buffer.new 2 = .ok (Buffer.mk [0, 0] 2 2 false) ∧
    (Buffer.mk [0, 0] 2 2 false).write [5] = .ok (1, Buffer.mk [0, 5] 1 2 false) ∧
    (Buffer.mk [0, 5] 1 2 false).read [0] = .ok (1, [5], Buffer.mk [0, 5] 1 1 false) ∧
    (Buffer.mk [0, 5] 1 1 false).writeAvailability = 2 ∧
    (Buffer.mk [0, 5] 1 1 false).write [8, 9] = .ok (2, Buffer.mk [8, 9] 1 1 true) ∧
    (Buffer.mk [8, 9] 1 1 true).read [0, 0]
      = .ok (2, [9, 8], Buffer.mk [8, 9] 1 1 false) ∧
    ([9, 8] : List Nat) ≠ [8, 9] := by
  refine ⟨rfl, rfl, rfl, rfl, rfl, rfl, by decide⟩

/-- C6: the spec describes `Omit(n)` as advancing the read position as
if `n` bytes had been read.  `Omit` wraps on `rpos <= n` where `Read`
wraps only on `rpos < toRead`, so at `rpos = n` with `wpos = 0` the two
leave different states: on the reachable state
`(buffer = [5,6], wpos = 0, rpos = 1)` with one staged byte, `Omit 1`
leaves `read_availability 2` — resurrecting consumed bytes — while
reading one byte leaves `read_availability 0`. -/
theorem c6_omit_read_divergence :
    Buffer.new 2 = .ok (Buffer.mk [0, 0] 2 2 false) ∧
    (Buffer.mk [0, 0] 2 2 false).write [1, 2] = .ok (2, Buffer.mk [1, 2] 2 2 true) ∧
    (Buffer.mk [1, 2] 2 2 true).read [0, 0]
      = .ok (2, [1, 2], Buffer.mk [1, 2] 2 0 false) ∧
    (Buffer.mk [1, 2] 2 0 false).write [5, 6] = .ok (2, Buffer.mk [5, 6] 0 0 true) ∧
    (Buffer.mk [5, 6] 0 0 true).omit 1 = .ok (Buffer.mk [5, 6] 0 1 false) ∧
    (Buffer.mk [5, 6] 0 1 false).readAvailability = 1 ∧
    (Buffer.mk [5, 6] 0 1 false).omit 1 = .ok (Buffer.mk [5, 6] 0 2 false) ∧
    (Buffer.mk [5, 6] 0 1 false).read [0]
      = .ok (1, [5], Buffer.mk [5, 6] 0 0 false) ∧
    (Buffer.mk [5, 6] 0 2 false).readAvailability = 2 ∧
    (Buffer.mk [5, 6] 0 0 false).readAvailability = 0 ∧
    (2 : Nat) ≠ 0 := by
  refine ⟨rfl, rfl, rfl, rfl, rfl, rfl, rfl, rfl, rfl, rfl, by decide⟩

/-- C4: a write never overwrites an unread (staged, not yet read or
omitted) storage cell: after a successful `Buffer.Write` on a
well-formed state, every cell of the circular unread region holds the
byte it held before the call. -/
theorem c4_unread_preserved (cb : Buffer) (v : List Nat) (t : Nat) (cb1 : Buffer)
    (hwf : cb.wf) (hok : cb.write v = .ok (t, cb1)) :
    ∀ i, cb.unreadIdx i → cb1.buffer[i]? = cb.buffer[i]? := by
  obtain ⟨h1, hw, hr, hfull⟩ := hwf
  obtain ⟨ht, ht1, -, -, -, -⟩ :=
    Buffer.write_inv cb v t cb1 ⟨h1, hw, hr, hfull⟩ hok
  have hnf : cb.full = false := by
    cases hf : cb.full
    · rfl
    · have : cb.writeAvailability = 0 := by simp [Buffer.writeAvailability, hf]
      omega
  have hwale : cb.writeAvailability ≤ cb.buffer.length := cb.wa_le hw
  have htwa : t ≤ cb.writeAvailability := by omega
  have htv : t ≤ v.length := by omega
  have hsublen : (sub v 0 (min cb.writeAvailability v.length)).length
      = min cb.writeAvailability v.length := by
    rw [sub_zero, List.length_take]
    omega
  unfold Buffer.write at hok
  rw [if_neg (show ¬(v.length = 0) from by omega)] at hok
  simp only [if_neg (show ¬(min cb.writeAvailability v.length = 0) from by omega)] at hok
  intro i hi
  by_cases hb1 : cb.wpos ≤ cb.rpos
  · rw [if_pos hb1] at hok
    have hiw : cb.wpos ≤ i ∧ i < cb.rpos := by
      rcases hi with ⟨hf, -⟩ | ⟨-, -, hiw, hir⟩ | ⟨-, hlt, -⟩
      · rw [hnf] at hf
        cases hf
      · exact ⟨hiw, hir⟩
      · omega
    have hwa : cb.writeAvailability = cb.buffer.length - cb.rpos + cb.wpos := by
      simp [Buffer.writeAvailability, hnf, hb1]
    by_cases hb2 : min cb.writeAvailability v.length < cb.wpos
    · rw [if_pos hb2] at hok
      simp only [Except.ok.injEq, Prod.mk.injEq] at hok
      obtain ⟨-, hcb1⟩ := hok
      subst hcb1
      show (listCopy cb.buffer (cb.wpos - min cb.writeAvailability v.length)
        (sub v 0 (min cb.writeAvailability v.length)))[i]? = cb.buffer[i]?
      apply listCopy_getElem?_high
      · rw [hsublen]
        omega
      · rw [hsublen]
        omega
    · rw [if_neg hb2] at hok
      simp only [Except.ok.injEq, Prod.mk.injEq] at hok
      obtain ⟨-, hcb1⟩ := hok
      subst hcb1
      have hwv : cb.wpos ≤ v.length := by omega
      have hsubw : (sub v 0 cb.wpos).length = cb.wpos := by
        rw [sub_zero, List.length_take]
        omega
      have hlen1 : (listCopy cb.buffer 0 (sub v 0 cb.wpos)).length = cb.buffer.length := by
        apply listCopy_length
        rw [hsubw]
        omega
      show (listCopy (listCopy cb.buffer 0 (sub v 0 cb.wpos))
        (cb.buffer.length - min cb.writeAvailability v.length + cb.wpos)
        (sub v cb.wpos (min cb.writeAvailability v.length)))[i]? = cb.buffer[i]?
      have hstep1 : (listCopy (listCopy cb.buffer 0 (sub v 0 cb.wpos))
          (cb.buffer.length - min cb.writeAvailability v.length + cb.wpos)
          (sub v cb.wpos (min cb.writeAvailability v.length)))[i]?
          = (listCopy cb.buffer 0 (sub v 0 cb.wpos))[i]? :=
        listCopy_getElem?_low (by omega) (by omega)
      rw [hstep1]
      apply listCopy_getElem?_high
      · rw [hsubw]
        omega
      · rw [hsubw]
        omega
  · rw [if_neg hb1] at hok
    simp only [Except.ok.injEq, Prod.mk.injEq] at hok
    obtain ⟨-, hcb1⟩ := hok
    subst hcb1
    have hwa : cb.writeAvailability = cb.wpos - cb.rpos := by
      simp [Buffer.writeAvailability, hnf, hb1]
    have hiw : cb.wpos ≤ i ∧ i < cb.buffer.length ∨ i < cb.rpos := by
      rcases hi with ⟨hf, -⟩ | ⟨-, hwr, -, -⟩ | ⟨-, -, hor⟩
      · rw [hnf] at hf
        cases hf
      · omega
      · exact hor
    show (listCopy cb.buffer (cb.wpos - min cb.writeAvailability v.length)
      (sub v 0 (min cb.writeAvailability v.length)))[i]? = cb.buffer[i]?
    rcases hiw with ⟨hiw, hil⟩ | hir
    · apply listCopy_getElem?_high
      · rw [hsublen]
        omega
      · rw [hsublen]
        omega
    · apply listCopy_getElem?_low
      · omega
      · omega

/-- Closed instance of C4 at a concrete reachable state: writing `[9]`
into `(buffer = [1,2], wpos = 2, rpos = 1)` leaves the unread cell 0
untouched. -/
theorem c4_unread_preserved_witness :
    ((Buffer.mk [1, 2] 2 1 false).wf ∧
      (Buffer.mk [1, 2] 2 1 false).write [9] = .ok (1, Buffer.mk [1, 9] 1 1 true)) ∧
    (∀ i, (Buffer.mk [1, 2] 2 1 false).unreadIdx i →
      (Buffer.mk [1, 9] 1 1 true).buffer[i]? = (Buffer.mk [1, 2] 2 1 false).buffer[i]?) :=
  ⟨⟨by decide, rfl⟩,
    c4_unread_preserved (Buffer.mk [1, 2] 2 1 false) [9] 1 (Buffer.mk [1, 9] 1 1 true)
      (by decide) rfl⟩


/-- The `Reader.Read` loop over the in-memory source, content view: a
loop state whose slice already matches the source beyond `off` finishes
the request and leaves the whole source in the slice. -/
theorem readLoop_round_trip (S : List Nat) :
    ∀ (fuel read : Nat) (b : List Nat) (off : Nat) (cb : Buffer),
      1 ≤ cb.buffer.length → cb.wpos ≤ cb.buffer.length →
      cb.readAvailability = 0 →
      (off = 0 ∨ cb.rpos = 0 ∨ cb.rpos = cb.buffer.length) →
      off + read = S.length → b.length = S.length →
      b.drop off = S.drop off → off + 1 ≤ fuel →
      (Reader.readLoop (inMemReadAt S) fuel S.length read b off cb).err = none ∧
      (Reader.readLoop (inMemReadAt S) fuel S.length read b off cb).n = S.length ∧
      (Reader.readLoop (inMemReadAt S) fuel S.length read b off cb).b = S ∧
      (Reader.readLoop (inMemReadAt S) fuel S.length read b off cb).off = 0 := by
  intro fuel
  induction fuel with
  | zero =>
    intro read b off cb _ _ _ _ _ _ _ hfuel
    exact absurd hfuel (by omega)
  | succ f ih =>
    intro read b off cb h1 hw hav hrp hor hblen hbinv hfuel
    by_cases hrt : read = S.length
    · have hoff0 : off = 0 := by omega
      subst hoff0
      have hbS : b = S := by
        have := hbinv
        simpa using this
      simp only [Reader.readLoop]
      rw [if_pos hrt]
      exact ⟨rfl, by simpa using hrt.symm ▸ rfl, hbS, rfl⟩
    · have hoff1 : 1 ≤ off := by omega
      have hrp' : cb.rpos = 0 ∨ cb.rpos = cb.buffer.length := by
        rcases hrp with h | h
        · omega
        · exact h
      have hmle : (if off < cb.buffer.length then off else cb.buffer.length) ≤ off := by
        split <;> omega
      have hm1 : 1 ≤ (if off < cb.buffer.length then off else cb.buffer.length) := by
        split <;> omega
      have hmc : (if off < cb.buffer.length then off else cb.buffer.length)
          ≤ cb.buffer.length := by
        split <;> omega
      have hcase : off - (if off < cb.buffer.length then off else cb.buffer.length) = 0
          ∨ (if off < cb.buffer.length then off else cb.buffer.length)
            = cb.buffer.length := by
        split <;> omega
      generalize hgm : (if off < cb.buffer.length then off else cb.buffer.length) = m
        at hmle hm1 hmc hcase
      have hsrc := inMem_spec S m (off - m) (by omega)
      rw [show off - m + m = off from by omega] at hsrc
      have hvlen : (sub S (off - m) off).length = m := by
        rw [sub_length (by omega)]
        omega
      have herr : (inMemReadAt S m (off - m)).err = none := by rw [hsrc]
      have hnr : (inMemReadAt S m (off - m)).nr = m := by rw [hsrc]
      have hdata : (inMemReadAt S m (off - m)).data = sub S (off - m) off := by rw [hsrc]
      have hwarg : sub (inMemReadAt S m (off - m)).data 0 (inMemReadAt S m (off - m)).nr
          = sub S (off - m) off := by
        rw [hdata, hnr, sub_zero]
        exact List.take_of_length_le (by omega)
      have hdlen : (sub b (off - m) off).length = (sub S (off - m) off).length := by
        rw [sub_length (by omega), hvlen]
        omega
      obtain ⟨cb1, cb2, hweq, hav1, hlen1, hwf1, hreadeq, hlen2, hwp2, hav2, hrp2⟩ :=
        refill_drain cb (sub S (off - m) off) (sub b (off - m) off) h1 hw hav hrp'
          (by omega) (by omega) hdlen
      have hbody : Reader.loopBody (inMemReadAt S) S.length read b off cb
          = Reader.drainBody S.length read b (off - m) cb1 := by
        simp only [Reader.loopBody, Buffer.size]
        rw [if_pos hav, hgm, herr, hwarg, hweq, hnr, hvlen]
        simp
      have hdrain : Reader.drainBody S.length read b (off - m) cb1
          = .next (read + m) (listCopy b (off - m) (sub S (off - m) off)) (off - m) cb2 := by
        simp only [Reader.drainBody]
        rw [hav1, hvlen, show S.length - read = off from by omega,
          show min off m = m from by omega, hreadeq, hvlen]
        simp
      have hstep : Reader.readLoop (inMemReadAt S) (f + 1) S.length read b off cb
          = Reader.readLoop (inMemReadAt S) f S.length (read + m)
              (listCopy b (off - m) (sub S (off - m) off)) (off - m) cb2 := by
        simp only [Reader.readLoop]
        rw [if_neg hrt, hbody, hdrain]
      have hblen' : (listCopy b (off - m) (sub S (off - m) off)).length = S.length := by
        rw [listCopy_length (by omega)]
        exact hblen
      have hbinv' : (listCopy b (off - m) (sub S (off - m) off)).drop (off - m)
          = S.drop (off - m) := by
        rw [listCopy_drop_self (by omega)]
        rw [hvlen, show off - m + m = off from by omega, hbinv]
        exact sub_append_drop (by omega) (by omega)
      have hrp'' : off - m = 0 ∨ cb2.rpos = 0 ∨ cb2.rpos = cb2.buffer.length := by
        rcases hcase with h | h
        · exact Or.inl h
        · refine Or.inr ?rp
          rw [hlen2]
          exact hrp2 (by omega)
      rw [hstep]
      exact ih (read + m) (listCopy b (off - m) (sub S (off - m) off)) (off - m) cb2
        (by omega) (by rw [hlen2]; exact hwp2) hav2 hrp'' (by omega) hblen' hbinv'
        (by omega)

/-- C1 (amended to nonempty sequences): for every nonempty byte sequence
`S` and every buffer capacity at least 1, a reader over a source holding
exactly `S`, initialized at offset `len S`, asked to read `len S` bytes,
returns count `len S` with no error and leaves exactly `S` in the
caller's slice. -/
theorem c1_round_trip (S b : List Nat) (c : Nat) (hS : S ≠ []) (hc : 1 ≤ c)
    (hb : b.length = S.length) :
    ∃ r, Reader.new (inMemReadAt S) S.length c = .ok r ∧
      (r.read b).n = S.length ∧ (r.read b).err = none ∧ (r.read b).b = S := by
  have hS1 : 1 ≤ S.length := by
    cases S with
    | nil => exact absurd rfl hS
    | cons x xs => simp
  have hb1 : ¬(b.length = 0) := by omega
  have hnew : Reader.new (inMemReadAt S) S.length c
      = .ok ⟨inMemReadAt S, S.length, freshBuf c⟩ := by
    unfold Reader.new Buffer.new Buffer.reset freshBuf minBufSize minSize
    rw [if_neg (by omega : ¬(c < 1)), if_neg (by omega : ¬(c < 1))]
    simp
  have hav0 : (freshBuf c).readAvailability = 0 := by
    simp [freshBuf, Buffer.readAvailability, Buffer.writeAvailability]
  have hbdrop : b.drop S.length = S.drop S.length := by
    rw [List.drop_length, ← hb]
    exact List.drop_length b
  obtain ⟨he, hn, hbS, hoff⟩ := readLoop_round_trip S (b.length + 1) 0 b S.length
    (freshBuf c) (by simp [freshBuf]; omega) (by simp [freshBuf]) hav0
    (Or.inr (Or.inr (by simp [freshBuf]))) (by omega) hb hbdrop (by omega)
  have hoffc : Reader.offset ⟨inMemReadAt S, S.length, freshBuf c⟩ = S.length := by
    simp [Reader.offset, hav0]
  refine ⟨⟨inMemReadAt S, S.length, freshBuf c⟩, hnew, ?rest⟩
  have hread : Reader.read ⟨inMemReadAt S, S.length, freshBuf c⟩ b
      = Reader.readLoop (inMemReadAt S) (b.length + 1) S.length 0 b S.length
          (freshBuf c) := by
    simp only [Reader.read]
    rw [if_neg hb1, hoffc, show min b.length S.length = S.length from by omega, he,
      hn, hb]
    simp
  rw [hread]
  exact ⟨hn, he, hbS⟩

/-- Closed instance of C1 at `S = [5, 6]`, capacity 1. -/
theorem c1_round_trip_witness :
    (([5, 6] : List Nat) ≠ [] ∧ 1 ≤ 1 ∧
      ([0, 0] : List Nat).length = ([5, 6] : List Nat).length) ∧
    (∃ r, Reader.new (inMemReadAt [5, 6]) ([5, 6] : List Nat).length 1 = .ok r ∧
      (r.read [0, 0]).n = ([5, 6] : List Nat).length ∧ (r.read [0, 0]).err = none ∧
      (r.read [0, 0]).b = [5, 6]) :=
  ⟨⟨by decide, by decide, by decide⟩,
    c1_round_trip [5, 6] [0, 0] 1 (by decide) (by decide) (by decide)⟩

/-- C1 as stated is false for `S = []`: reading zero bytes returns
`ErrInvalidArguments`, not a zero count with no error. -/
theorem c1_counterexample :
    Reader.new (inMemReadAt ([] : List Nat)) 0 1
        = .ok ⟨inMemReadAt ([] : List Nat), 0, freshBuf 1⟩ ∧
      (Reader.read ⟨inMemReadAt ([] : List Nat), 0, freshBuf 1⟩ []).err
        = some .invalidArguments ∧
      ¬ (Reader.read ⟨inMemReadAt ([] : List Nat), 0, freshBuf 1⟩ []).err = none :=
  ⟨rfl, rfl, by simp [Reader.read]⟩

/-- C3: requesting more bytes than `Offset()` reports, over a source
whose in-range reads succeed, returns the maximum available count paired
with `NoContent`, and the reader's `Offset()` afterward is 0. -/
theorem c3_exhaustion (r : Reader) (b : List Nat) (hwf : r.buf.wf)
    (hg : goodBelow r.ir r.off) (hb1 : 1 ≤ b.length)
    (hlt : Reader.offset r < b.length) :
    (r.read b).n = Reader.offset r ∧ (r.read b).err = some Err.noContent ∧
    (r.read b).off + (r.read b).buf.readAvailability = 0 := by
  have hoffd : Reader.offset r = r.off + r.buf.readAvailability := rfl
  have hmin : min b.length (Reader.offset r) = Reader.offset r := by omega
  obtain ⟨he, hn, hsum, -⟩ := readLoop_counts r.ir (b.length + 1)
    (min b.length (Reader.offset r)) 0 b r.off r.buf hwf hg (by omega) (by omega)
    (by omega) (by omega)
  have he' : (Reader.loopRes r b).err = none := he
  have hn' : (Reader.loopRes r b).n = min b.length (Reader.offset r) := hn
  have hsum' : (Reader.loopRes r b).off + (Reader.loopRes r b).buf.readAvailability
      = r.off + r.buf.readAvailability - (min b.length (Reader.offset r) - 0) := hsum
  rcases Reader.read_cases r b (by omega) with ⟨hre, hcase⟩ | ⟨hre, -, -⟩
  · exfalso
    rcases hcase with hne | hge
    · exact hne he'
    · omega
  · rw [hre]
    refine ⟨?n, rfl, ?o⟩
    case n =>
      show (Reader.loopRes r b).n = Reader.offset r
      omega
    case o =>
      show (Reader.loopRes r b).off + (Reader.loopRes r b).buf.readAvailability = 0
      omega

/-- Closed instance of C3: a reader holding one byte asked for two. -/
theorem c3_exhaustion_witness :
    ((freshBuf 1).wf ∧ goodBelow (inMemReadAt [7]) 1 ∧ 1 ≤ ([0, 0] : List Nat).length ∧
      Reader.offset ⟨inMemReadAt [7], 1, freshBuf 1⟩ < ([0, 0] : List Nat).length) ∧
    ((Reader.read ⟨inMemReadAt [7], 1, freshBuf 1⟩ [0, 0]).n
        = Reader.offset ⟨inMemReadAt [7], 1, freshBuf 1⟩ ∧
      (Reader.read ⟨inMemReadAt [7], 1, freshBuf 1⟩ [0, 0]).err = some Err.noContent ∧
      (Reader.read ⟨inMemReadAt [7], 1, freshBuf 1⟩ [0, 0]).off
        + (Reader.read ⟨inMemReadAt [7], 1, freshBuf 1⟩ [0, 0]).buf.readAvailability
        = 0) :=
  ⟨⟨by decide, inMem_goodBelow [7] 1 (by decide), by decide, by decide⟩,
    c3_exhaustion ⟨inMemReadAt [7], 1, freshBuf 1⟩ [0, 0] (by decide)
      (inMem_goodBelow [7] 1 (by decide)) (by decide) (by decide)⟩

/-- On sources that never over-report and never return the internal
error themselves, `Reader.Read` never returns `ErrInternal`. -/
theorem read_no_internal (r : Reader) (b : List Nat) (hwf : r.buf.wf)
    (hnr : ∀ req o, (r.ir req o).nr ≤ req)
    (hlen : ∀ req o, (r.ir req o).data.length = req)
    (hserr : ∀ req o e, (r.ir req o).err = some e → e ≠ Err.internal) :
    (r.read b).err ≠ some Err.internal := by
  by_cases hb : b.length = 0
  · simp [Reader.read, hb]
  · have hloop := readLoop_no_internal r.ir hnr hlen hserr (b.length + 1)
      (min b.length (Reader.offset r)) 0 b r.off r.buf hwf (by omega)
    have hloop' : (Reader.loopRes r b).err ≠ some Err.internal := hloop
    rcases Reader.read_cases r b hb with ⟨hre, -⟩ | ⟨hre, -, -⟩
    · rw [hre]
      exact hloop'
    · rw [hre]
      simp

/-- The seek step of `Reader.ReadAt` only resets or omits, so `ReadAt`
is a `Read` from some well-formed buffer state. -/
theorem Reader.readAt_eq_read (r : Reader) (b : List Nat) (off : Nat) (hwf : r.buf.wf) :
    ∃ cb1, cb1.wf ∧ Reader.readAt r b off = Reader.read ⟨r.ir, off, cb1⟩ b := by
  refine ⟨if off < r.off then r.buf.reset
    else if r.off + r.buf.readAvailability < off then r.buf.reset
    else match r.buf.omit (off - r.off) with
      | .ok cb => cb
      | .error _ => r.buf, ?wf, rfl⟩
  case wf =>
    split
    · exact Buffer.wf_reset r.buf hwf.1
    · split
      · exact Buffer.wf_reset r.buf hwf.1
      · cases homit : r.buf.omit (off - r.off) with
        | ok cb => exact (Buffer.omit_wf r.buf (off - r.off) cb hwf homit).1
        | error e => exact hwf

/-- C7: over a source that never reports more bytes than requested
(and never itself produces the internal error), neither `Reader.Read`
nor `Reader.ReadAt` ever returns `ErrInternal`: the defensive
short-write/short-read checks never trigger. -/
theorem c7_no_internal (r : Reader) (b : List Nat) (off : Nat) (hwf : r.buf.wf)
    (hnr : ∀ req o, (r.ir req o).nr ≤ req)
    (hlen : ∀ req o, (r.ir req o).data.length = req)
    (hserr : ∀ req o e, (r.ir req o).err = some e → e ≠ Err.internal) :
    (r.read b).err ≠ some Err.internal ∧
    (r.readAt b off).err ≠ some Err.internal := by
  refine ⟨read_no_internal r b hwf hnr hlen hserr, ?ra⟩
  case ra =>
    obtain ⟨cb1, hwf1, heq⟩ := Reader.readAt_eq_read r b off hwf
    rw [heq]
    exact read_no_internal ⟨r.ir, off, cb1⟩ b hwf1 hnr hlen hserr

/-- Closed instance of C7 over the in-memory source. -/
theorem c7_no_internal_witness :
    ((freshBuf 1).wf ∧ (∀ req o, (inMemReadAt [3] req o).nr ≤ req) ∧
      (∀ req o, (inMemReadAt [3] req o).data.length = req) ∧
      (∀ req o e, (inMemReadAt [3] req o).err = some e → e ≠ Err.internal)) ∧
    ((Reader.read ⟨inMemReadAt [3], 1, freshBuf 1⟩ [0]).err ≠ some Err.internal ∧
      (Reader.readAt ⟨inMemReadAt [3], 1, freshBuf 1⟩ [0] 0).err
        ≠ some Err.internal) :=
  ⟨⟨by decide, inMem_nr_le [3], inMem_data_len [3], inMem_err_not_internal [3]⟩,
    c7_no_internal ⟨inMemReadAt [3], 1, freshBuf 1⟩ [0] 0 (by decide)
      (inMem_nr_le [3]) (inMem_data_len [3]) (inMem_err_not_internal [3])⟩

/-- C8: when the buffer holds nothing and the source answers a refill
with zero bytes and no error while bytes are still needed, `Reader.Read`
returns count 0 with the buffer's empty-input error: the zero fetched
bytes reach `Buffer.Write` as an empty slice, which rejects it. -/
theorem c8_zero_fetch (r : Reader) (b : List Nat) (hb : 1 ≤ b.length)
    (hav : r.buf.readAvailability = 0) (hoff : 1 ≤ r.off)
    (hs0 : ∀ req o, (r.ir req o).nr = 0) (hse : ∀ req o, (r.ir req o).err = none) :
    (r.read b).n = 0 ∧ (r.read b).err = some Err.bufInputEmpty := by
  have hoffd : Reader.offset r = r.off + r.buf.readAvailability := rfl
  have hbody : Reader.loopBody r.ir (min b.length (Reader.offset r)) 0 b r.off r.buf
      = .halt { n := 0, b := b, off := r.off, buf := r.buf,
                err := some .bufInputEmpty } := by
    simp only [Reader.loopBody, Buffer.size]
    rw [if_pos hav, hse _ _, hs0 _ _, sub_same, Buffer.write_nil]
  have hloop : Reader.loopRes r b
      = { n := 0, b := b, off := r.off, buf := r.buf,
          err := some .bufInputEmpty } := by
    show Reader.readLoop r.ir (b.length + 1) (min b.length (Reader.offset r)) 0 b
      r.off r.buf = _
    simp only [Reader.readLoop]
    rw [if_neg (show ¬((0 : Nat) = min b.length (Reader.offset r)) from by omega),
      hbody]
  rcases Reader.read_cases r b (by omega) with ⟨hre, -⟩ | ⟨hre, herr, -⟩
  · rw [hre, hloop]
    exact ⟨rfl, rfl⟩
  · rw [hloop] at herr
    cases herr

/-- Closed instance of C8 over the zero-byte source. -/
theorem c8_zero_fetch_witness :
    (1 ≤ ([0] : List Nat).length ∧ (freshBuf 1).readAvailability = 0 ∧ 1 ≤ 1 ∧
      (∀ req o, (zeroSource req o).nr = 0) ∧
      (∀ req o, (zeroSource req o).err = none)) ∧
    ((Reader.read ⟨zeroSource, 1, freshBuf 1⟩ [0]).n = 0 ∧
      (Reader.read ⟨zeroSource, 1, freshBuf 1⟩ [0]).err = some Err.bufInputEmpty) :=
  ⟨⟨by decide, by decide, by decide, fun _ _ => rfl, fun _ _ => rfl⟩,
    c8_zero_fetch ⟨zeroSource, 1, freshBuf 1⟩ [0] (by decide) (by decide) (by decide)
      (fun _ _ => rfl) (fun _ _ => rfl)⟩

/-- C9: whenever `Reader.Read` returns an error other than `NoContent`,
the returned count is 0 — and yet the caller's slice may already have
been modified by earlier iterations, as the concrete run over the
low-failing source shows. -/
theorem c9_zero_count :
    (∀ (r : Reader) (b : List Nat), r.buf.wf →
      ∀ e, (r.read b).err = some e → e ≠ Err.noContent → (r.read b).n = 0) ∧
    (∃ (r : Reader) (b : List Nat) (e : Err), (r.read b).err = some e ∧
      e ≠ Err.noContent ∧ (r.read b).n = 0 ∧ (r.read b).b ≠ b) := by
  constructor
  · intro r b hwf e herr hne
    by_cases hb : b.length = 0
    · simp [Reader.read, hb]
    · have hzero := readLoop_n_zero r.ir (b.length + 1)
        (min b.length (Reader.offset r)) 0 b r.off r.buf hwf (by omega) (by omega)
      have hzero' : ∀ e, (Reader.loopRes r b).err = some e
          → (Reader.loopRes r b).n = 0 := hzero
      rcases Reader.read_cases r b hb with ⟨hre, -⟩ | ⟨hre, -, -⟩
      · rw [hre] at herr ⊢
        exact hzero' e herr
      · rw [hre] at herr
        have h2 : (some Err.noContent : Option Err) = some e := herr
        exact absurd (Option.some.inj h2).symm hne
  · exact ⟨⟨failLowSource, 4, freshBuf 2⟩, [9, 9, 9, 9], .src 0, rfl, by decide, rfl,
      by decide⟩

/-- C10: over a source whose in-range reads succeed, a `Read` that ends
with `nil` or `NoContent` leaves `Offset()` exactly `n` lower than
before the call, and `Offset()` never increases across the call. -/
theorem c10_offset_decreases (r : Reader) (b : List Nat) (hwf : r.buf.wf)
    (hg : goodBelow r.ir r.off) :
    (((r.read b).err = none ∨ (r.read b).err = some Err.noContent) →
      Reader.offset ⟨r.ir, (r.read b).off, (r.read b).buf⟩
        = Reader.offset r - (r.read b).n) ∧
    Reader.offset ⟨r.ir, (r.read b).off, (r.read b).buf⟩ ≤ Reader.offset r := by
  have hoffd : Reader.offset r = r.off + r.buf.readAvailability := rfl
  by_cases hb : b.length = 0
  · have hread0 : r.read b
        = ReadRes.mk 0 b r.off r.buf (some .invalidArguments) := by
      simp [Reader.read, hb]
    rw [hread0]
    constructor
    · rintro -
      show r.off + r.buf.readAvailability = Reader.offset r - 0
      omega
    · show r.off + r.buf.readAvailability ≤ Reader.offset r
      omega
  · obtain ⟨he, hn, hsum, -⟩ := readLoop_counts r.ir (b.length + 1)
      (min b.length (Reader.offset r)) 0 b r.off r.buf hwf hg (by omega) (by omega)
      (by omega) (by omega)
    have hn' : (Reader.loopRes r b).n = min b.length (Reader.offset r) := hn
    have hsum' : (Reader.loopRes r b).off + (Reader.loopRes r b).buf.readAvailability
        = r.off + r.buf.readAvailability - (min b.length (Reader.offset r) - 0) := hsum
    rcases Reader.read_cases r b hb with ⟨hre, -⟩ | ⟨hre, -, -⟩ <;> rw [hre] <;>
      constructor
    · rintro -
      show (Reader.loopRes r b).off + (Reader.loopRes r b).buf.readAvailability
        = Reader.offset r - (Reader.loopRes r b).n
      omega
    · show (Reader.loopRes r b).off + (Reader.loopRes r b).buf.readAvailability
        ≤ Reader.offset r
      omega
    · rintro -
      show (Reader.loopRes r b).off + (Reader.loopRes r b).buf.readAvailability
        = Reader.offset r - (Reader.loopRes r b).n
      omega
    · show (Reader.loopRes r b).off + (Reader.loopRes r b).buf.readAvailability
        ≤ Reader.offset r
      omega

/-- Closed instance of C10: the one-byte reader drained in full. -/
theorem c10_offset_decreases_witness :
    ((freshBuf 1).wf ∧ goodBelow (inMemReadAt [7]) 1) ∧
    ((((Reader.read ⟨inMemReadAt [7], 1, freshBuf 1⟩ [0]).err = none ∨
        (Reader.read ⟨inMemReadAt [7], 1, freshBuf 1⟩ [0]).err
          = some Err.noContent) →
      Reader.offset ⟨inMemReadAt [7],
          (Reader.read ⟨inMemReadAt [7], 1, freshBuf 1⟩ [0]).off,
          (Reader.read ⟨inMemReadAt [7], 1, freshBuf 1⟩ [0]).buf⟩
        = Reader.offset ⟨inMemReadAt [7], 1, freshBuf 1⟩
          - (Reader.read ⟨inMemReadAt [7], 1, freshBuf 1⟩ [0]).n) ∧
      Reader.offset ⟨inMemReadAt [7],
          (Reader.read ⟨inMemReadAt [7], 1, freshBuf 1⟩ [0]).off,
          (Reader.read ⟨inMemReadAt [7], 1, freshBuf 1⟩ [0]).buf⟩
        ≤ Reader.offset ⟨inMemReadAt [7], 1, freshBuf 1⟩) :=
  ⟨⟨by decide, inMem_goodBelow [7] 1 (by decide)⟩,
    c10_offset_decreases ⟨inMemReadAt [7], 1, freshBuf 1⟩ [0] (by decide)
      (inMem_goodBelow [7] 1 (by decide))⟩

end Backr
